import Mathlib

/-!
Verification development for the capo repository (konflux-ci/capo).

Shallow embedding of the core data model and algorithms:
* `pkg/containerfile/containerfile.go` — recipe parsing (stages, copies,
  working-directory resolution);
* `pkg/scan.go` — provenance tracing (`traceSource`, `getPackageSources`,
  `Scan`);
* `pkg/content.go` — mask inclusion test (`includes`) and the layer locator
  (`getIntermediateLayers`, `getLastIntermediateLayer`).

Go strings are modelled as Lean `String`; byte-level prefix/suffix tests are
modelled on the character lists (all paths of interest are ASCII, where the
two coincide).  Go's unbounded recursion is modelled with an explicit fuel
parameter; `panic` (nil-map dereference, empty-slice indexing) is modelled by
dedicated outcome constructors.
-/

/-- Go `strings.HasPrefix(s, pre)`. -/
def hasPrefixGo (s pre : String) : Bool :=
  List.isPrefixOf pre.data s.data

/-- Go `strings.HasSuffix(s, suf)`. -/
def hasSuffixGo (s suf : String) : Bool :=
  List.isSuffixOf suf.data s.data

/-- Go `strings.TrimPrefix(s, pre)`. -/
def trimPrefixGo (s pre : String) : String :=
  if hasPrefixGo s pre then String.mk (s.data.drop pre.data.length) else s

namespace Capo

/-! ## Data model (`pkg/containerfile/containerfile.go`) -/

/-- Embeds `containerfile.CopyType`: `CopyTypeBuilder` / `CopyTypeExternal`. -/
inductive CopyType where
  | builder
  | external
deriving DecidableEq, Repr

/-- Embeds `containerfile.Copy`.  The Go field `Type` is renamed `ty` here because
`Type` is a Lean keyword. -/
structure Copy where
  Sources : List String
  Destination : String
  From : String
  ty : CopyType
deriving DecidableEq, Repr

/-- Embeds `containerfile.Stage`. -/
structure Stage where
  Alias : String
  Pullspec : String
  Copies : List Copy
deriving DecidableEq, Repr

/-- Embeds `containerfile.FinalStage`, — the reserved sentinel alias of the final
stage (the empty string). -/
def FinalStage : String := ""

/-! ## Provenance tracing (`pkg/scan.go`)

The Go code keys its accumulator map by `*containerfile.Stage`.  Builder
stages are always referenced via the pointers `&stages[i]`, so their keys are
modelled by the stage index.  Each external copy occurrence allocates a fresh
`containerfile.Stage` value inside the loop body, hence a fresh pointer: this
is modelled by a distinct occurrence counter. -/

/-- A key of the `map[*containerfile.Stage][]string` accumulator. -/
inductive StageKey where
  /-- pointer `&stages[i]` to a builder stage -/
  | builder (i : Nat)
  /-- pointer to the fresh `Stage{Alias: "", Pullspec: pullspec}` value
  allocated for the `n`-th external copy occurrence -/
  | external (n : Nat) (pullspec : String)
deriving DecidableEq, Repr

/-- The accumulator map, with entries in insertion order. -/
abbrev Acc := List (StageKey × List String)

/-- Models `acc[k] = append(acc[k], s)` on the accumulator map. -/
def accAppend (acc : Acc) (k : StageKey) (s : String) : Acc :=
  match acc with
  | [] => [(k, [s])]
  | (k0, l) :: rest =>
    if k0 = k then (k0, l ++ [s]) :: rest else (k0, l) :: accAppend rest k s

/-- Map lookup with Go's zero-value default (`nil` slice ≙ `[]`). -/
def accGet (acc : Acc) (k : StageKey) : List String :=
  match acc with
  | [] => []
  | (k0, l) :: rest => if k0 = k then l else accGet rest k

/-- Go `delete(acc, k)`. -/
def accDelete (acc : Acc) (k : StageKey) : Acc :=
  match acc with
  | [] => []
  | (k0, l) :: rest =>
    if k0 = k then rest else (k0, l) :: accDelete rest k

/-- The `aliasToStage` map of `getPackageSources`: built over
`stages[:len(stages)-1]` in order (a later stage with the same alias
overwrites an earlier one), returning the stage's index (≙ its pointer). -/
def aliasToStageIdx (stages : List Stage) (a : String) : Option Nat :=
  (List.range (stages.length - 1)).foldl
    (fun acc i =>
      match stages.get? i with
      | some st => if st.Alias = a then some i else acc
      | none => acc)
    none

/-- Outcome of a run of `traceSource`: the Go function either returns after
mutating the accumulator, or panics by dereferencing a `nil` `*Stage`
(`aliasToStage` miss).  `outOfFuel` is the artefact of the fuel parameter:
the Go recursion has run longer than the allotted fuel. -/
inductive TraceOutcome where
  | ok (acc : Acc)
  | nilDeref
  | outOfFuel
deriving DecidableEq, Repr

/-- The inner `for _, s := range cp.Sources` loop of `traceSource`,
abstracted over the recursive call `f`. -/
def traceListF (f : String → Option Nat → Acc → TraceOutcome)
    (srcs : List String) (curr : Option Nat) (acc : Acc) : TraceOutcome :=
  match srcs with
  | [] => .ok acc
  | s :: rest =>
    match f s curr acc with
    | .ok a1 => traceListF f rest curr a1
    | .nilDeref => .nilDeref
    | .outOfFuel => .outOfFuel

/-- The `for _, cp := range currStage.Copies` loop of `traceSource`,
abstracted over the recursive call `f`.  The loop recurses into a copy
exactly when `strings.HasPrefix(cp.Destination, source)` holds, i.e. when
the traced `source` is a string prefix of the copy's destination. -/
def traceCopiesF (stages : List Stage)
    (f : String → Option Nat → Acc → TraceOutcome)
    (source : String) (cps : List Copy) (acc : Acc) : TraceOutcome :=
  match cps with
  | [] => .ok acc
  | cp :: rest =>
    if hasPrefixGo cp.Destination source then
      match traceListF f cp.Sources (aliasToStageIdx stages cp.From) acc with
      | .ok a1 => traceCopiesF stages f source rest a1
      | .nilDeref => .nilDeref
      | .outOfFuel => .outOfFuel
    else traceCopiesF stages f source rest acc

/-- Embeds `traceSource` from `pkg/scan.go` (lines 169–193).  `curr = none` models
the `nil` stage pointer produced by an `aliasToStage` miss: the Go code then
panics at `currStage.Copies`.  `foundAncestor` equals "some copy's
destination has `source` as a prefix", independently of the recursion. -/
def traceSource (stages : List Stage) :
    Nat → String → Option Nat → Acc → TraceOutcome
  | _, _, none, _ => .nilDeref
  | 0, _, some _, _ => .outOfFuel
  | Nat.succ fuel1, source, some i, acc =>
    match stages.get? i with
    | none => .nilDeref
    | some st =>
      let found := st.Copies.any fun cp => hasPrefixGo cp.Destination source
      match traceCopiesF stages (traceSource stages fuel1) source st.Copies acc with
      | .ok a1 =>
        if hasSuffixGo source "/" || !found then
          .ok (accAppend a1 (.builder i) source)
        else .ok a1
      | .nilDeref => .nilDeref
      | .outOfFuel => .outOfFuel

/-- Embeds `packageSource` from `pkg/scan.go`.  The Go field `alias` is renamed
`alias0` here because `alias` is a Lean keyword. -/
structure packageSource where
  alias0 : String
  pullspec : String
  sources : List String
deriving DecidableEq, Repr

/-- Outcome of the final-stage copy loop of `getPackageSources`, carrying the
accumulator and the count of external occurrences allocated so far. -/
inductive FinalOutcome where
  | ok (acc : Acc) (n : Nat)
  | nilDeref
  | outOfFuel
deriving DecidableEq, Repr

/-- The `for _, source := range cp.Sources` loop of `getPackageSources` for a
single final-stage copy: builder-type sources are traced, external sources
are attributed to a freshly allocated external stage value. -/
def traceFinalSources (stages : List Stage) (fuel : Nat) (cpFrom : String)
    (srcs : List String) (acc : Acc) (n : Nat) : FinalOutcome :=
  match srcs with
  | [] => .ok acc n
  | s :: rest =>
    match aliasToStageIdx stages cpFrom with
    | some i =>
      match traceSource stages fuel s (some i) acc with
      | .ok a1 => traceFinalSources stages fuel cpFrom rest a1 n
      | .nilDeref => .nilDeref
      | .outOfFuel => .outOfFuel
    | none =>
      traceFinalSources stages fuel cpFrom rest
        (acc ++ [(.external n cpFrom, [s])]) (n + 1)

/-- The `for _, cp := range final.Copies` loop of `getPackageSources`. -/
def traceFinalCopies (stages : List Stage) (fuel : Nat)
    (cps : List Copy) (acc : Acc) (n : Nat) : FinalOutcome :=
  match cps with
  | [] => .ok acc n
  | cp :: rest =>
    match traceFinalSources stages fuel cp.From cp.Sources acc n with
    | .ok a1 n1 => traceFinalCopies stages fuel rest a1 n1
    | .nilDeref => .nilDeref
    | .outOfFuel => .outOfFuel

/-- The builder-construction loop of `getPackageSources`: one `packageSource`
per non-final stage (in order), reading and then deleting its accumulator
entry.  Returns the constructed list and the remaining accumulator. -/
def buildersAux (stagesNF : List Stage) (i : Nat) (acc : Acc) :
    List packageSource × Acc :=
  match stagesNF with
  | [] => ([], acc)
  | st :: rest =>
    let ps : packageSource :=
      ⟨st.Alias, st.Pullspec, accGet acc (.builder i)⟩
    let r := buildersAux rest (i + 1) (accDelete acc (.builder i))
    (ps :: r.1, r.2)

/-- The external-construction loop of `getPackageSources`: the leftover
accumulator entries become external `packageSource`s (alias and pullspec read
from the stage value the key points to). -/
def externalsOf (stages : List Stage) (acc : Acc) : List packageSource :=
  match acc with
  | [] => []
  | (k, l) :: rest =>
    (match k with
     | .external _ pullspec =>
       ({ alias0 := "", pullspec := pullspec, sources := l } : packageSource)
     | .builder i =>
       { alias0 := ((stages.get? i).map Stage.Alias).getD "",
         pullspec := ((stages.get? i).map Stage.Pullspec).getD "",
         sources := l })
    :: externalsOf stages rest

/-- Outcome of `getPackageSources`: `panic1` models the Go panic on an empty
stage slice (`stages[:len(stages)-1]` with `len(stages) = 0`). -/
inductive SourcesOutcome where
  | ok (res : List packageSource)
  | nilDeref
  | outOfFuel
  | panic1
deriving DecidableEq, Repr

/-- Embeds `getPackageSources` from `pkg/scan.go` (lines 103–161). -/
def getPackageSources (stages : List Stage) (fuel : Nat) : SourcesOutcome :=
  match stages.getLast? with
  | none => .panic1
  | some final =>
    match traceFinalCopies stages fuel final.Copies [] 0 with
    | .ok acc _ =>
      let br := buildersAux stages.dropLast 0 acc
      .ok (br.1 ++ externalsOf stages br.2)
    | .nilDeref => .nilDeref
    | .outOfFuel => .outOfFuel

/-! ## Mask inclusion test (`pkg/content.go`, `includes`) -/

/-- Embeds `includes` from `pkg/content.go` (lines 66–78): normalize the candidate
path to start with a separator, then test whether any mask entry is a literal
string prefix of it. -/
def includes (sources : List String) (path : String) : Bool :=
  let path1 := if hasPrefixGo path "/" then path else "/" ++ path
  sources.any fun src => hasPrefixGo path1 src

/-- Fuelled worker for the spec-side glob matcher; `*` matches any (possibly
empty) character sequence.  The fuel `p.length + s.length + 1` always
suffices since every recursive call shrinks the combined length. -/
def specGlobFuel : Nat → List Char → List Char → Bool
  | 0, _, _ => false
  | _ + 1, [], s => s.isEmpty
  | f + 1, c :: ps, s =>
    if c = '*' then
      specGlobFuel f ps s ||
        (match s with
         | [] => false
         | _ :: s1 => specGlobFuel f (c :: ps) s1)
    else
      match s with
      | [] => false
      | d :: s1 => c = d && specGlobFuel f ps s1

/-- Spec-side glob matching (supporting `*`), used only to state what the
spec's inclusion test would do. -/
def specGlobMatch (pat s : String) : Bool :=
  specGlobFuel (pat.data.length + s.data.length + 1) pat.data s.data

/-- The inclusion test as the spec describes it (§4.5): literal prefix, or
glob match for entries containing `*`.  This definition follows the spec's
words and exists only to be compared against `includes`. -/
def specIncludes (sources : List String) (path : String) : Bool :=
  let path1 := if hasPrefixGo path "/" then path else "/" ++ path
  sources.any fun src =>
    hasPrefixGo path1 src || (src.data.contains '*' && specGlobMatch src path1)

/-! ## Layer locator (`pkg/content.go`, `getIntermediateLayers` /
`getLastIntermediateLayer`)

The `containers/storage` store is modelled as a read-only list of images and
layers; `store.Layer(id)` is an association lookup that fails on a missing
id, mirroring the Go error path. -/

/-- A `storage.Layer`: identity and parent identity (empty at the root). -/
structure GoLayer where
  ID : String
  Parent : String
deriving DecidableEq, Repr

/-- A `storage.Image`: identity, top layer, human-assigned names. -/
structure GoImage where
  ID : String
  TopLayer : String
  Names : List String
deriving DecidableEq, Repr

/-- The read-only view of the `containers/storage` store used by the layer
locator. -/
structure GoStore where
  images : List GoImage
  layers : List GoLayer
deriving Repr

/-- Models `store.Layer(id)`: `none` models the Go error return. -/
def storeLayer (store : GoStore) (id : String) : Option GoLayer :=
  store.layers.find? fun l => l.ID == id

/-- Outcome of the parent-chain walk inside `getIntermediateLayers`:
the chain reaches the builder layer, ends at the root without reaching it,
hits a missing layer (Go error), or outlives the fuel. -/
inductive WalkOutcome where
  | reached
  | ended
  | storeErr
  | outOfFuel
deriving DecidableEq, Repr

/-- The `for { ... layerId = layer.Parent }` walk of `getIntermediateLayers`:
check `layerId == ""` first, then `layerId == builderId`, then look the layer
up and continue at its parent. -/
def chainWalk (store : GoStore) (builderId : String) :
    Nat → String → WalkOutcome
  | 0, _ => .outOfFuel
  | fuel + 1, layerId =>
    if layerId = "" then .ended
    else if layerId = builderId then .reached
    else
      match storeLayer store layerId with
      | none => .storeErr
      | some l => chainWalk store builderId fuel l.Parent

/-- Outcome of `getIntermediateLayers`. -/
inductive LayersOutcome where
  | ok (candidates : List GoLayer)
  | storeErr
  | outOfFuel
deriving DecidableEq, Repr

/-- The image loop of `getIntermediateLayers` (`pkg/content.go` lines
183–228): keep the top layer of every unnamed image — excluding the image
whose top layer is the builder layer itself — whose parent chain reaches the
builder layer. -/
def interLayersAux (store : GoStore) (builderLayer : GoLayer) (fuel : Nat) :
    List GoImage → LayersOutcome
  | [] => .ok []
  | img :: rest =>
    if img.Names.length ≠ 0 then interLayersAux store builderLayer fuel rest
    else if img.TopLayer = builderLayer.ID then
      interLayersAux store builderLayer fuel rest
    else
      match storeLayer store img.TopLayer with
      | none => .storeErr
      | some imgTopLayer =>
        match chainWalk store builderLayer.ID fuel img.TopLayer with
        | .reached =>
          match interLayersAux store builderLayer fuel rest with
          | .ok cs => .ok (imgTopLayer :: cs)
          | .storeErr => .storeErr
          | .outOfFuel => .outOfFuel
        | .ended => interLayersAux store builderLayer fuel rest
        | .storeErr => .storeErr
        | .outOfFuel => .outOfFuel

/-- Embeds `getIntermediateLayers` from `pkg/content.go`. -/
def getIntermediateLayers (store : GoStore) (builderLayer : GoLayer)
    (fuel : Nat) : LayersOutcome :=
  interLayersAux store builderLayer fuel store.images

/-- Outcome of the depth computation inside `getLastIntermediateLayer`. -/
inductive DepthOutcome where
  | ok (d : Nat)
  | storeErr
  | outOfFuel
deriving DecidableEq, Repr

/-- The depth walk of `getLastIntermediateLayer`: count parent hops from
`layerId` until the builder layer (or the root) is reached. -/
def depthWalk (store : GoStore) (builderId : String) :
    Nat → String → DepthOutcome
  | 0, _ => .outOfFuel
  | fuel + 1, layerId =>
    if layerId = "" then .ok 0
    else if layerId = builderId then .ok 0
    else
      match storeLayer store layerId with
      | none => .storeErr
      | some l =>
        match depthWalk store builderId fuel l.Parent with
        | .ok d => .ok (d + 1)
        | .storeErr => .storeErr
        | .outOfFuel => .outOfFuel

/-- Outcome of `getLastIntermediateLayer`: `ok none` is the Go `nil, nil`
return (no intermediate content). -/
inductive LastLayerOutcome where
  | ok (r : Option GoLayer)
  | storeErr
  | outOfFuel
deriving DecidableEq, Repr

/-- The candidate fold of `getLastIntermediateLayer`: keep the candidate with
the strictly greatest depth seen so far (`maxDepth` starts at 0,
`longestChain` at `nil`). -/
def lastLayerFold (store : GoStore) (builderId : String) (fuel : Nat) :
    List GoLayer → Nat → Option GoLayer → LastLayerOutcome
  | [], _, longest => .ok longest
  | c :: rest, maxDepth, longest =>
    match depthWalk store builderId fuel c.ID with
    | .ok d =>
      if maxDepth < d then lastLayerFold store builderId fuel rest d (some c)
      else lastLayerFold store builderId fuel rest maxDepth longest
    | .storeErr => .storeErr
    | .outOfFuel => .outOfFuel

/-- Embeds `getLastIntermediateLayer` from `pkg/content.go` (lines 230–272). -/
def getLastIntermediateLayer (store : GoStore) (builderLayer : GoLayer)
    (fuel : Nat) : LastLayerOutcome :=
  match getIntermediateLayers store builderLayer fuel with
  | .ok [] => .ok none
  | .ok (c :: cs) => lastLayerFold store builderLayer.ID fuel (c :: cs) 0 none
  | .storeErr => .storeErr
  | .outOfFuel => .outOfFuel

/-! ## Recipe parsing (`pkg/containerfile/containerfile.go`)

`imagebuilder.ParseDockerfile`, `imagebuilder.NewStages`, `ThroughTarget` and
`imagebuilder.ProcessWord` belong to the external `openshift/imagebuilder`
library.  The embedding therefore starts from the raw stage list those calls
produce (after build-argument substitution and target truncation): a
`RawStage` carries the stage's original name, its substituted base-image
word, and its instruction list with flag/argument words already substituted.
`path/filepath` (Go standard library) is modelled for slash-separated
paths. -/

/-- Go `filepath.IsAbs` for slash paths. -/
def goIsAbs (p : String) : Bool := hasPrefixGo p "/"

/-- Split a character list at every separator. -/
def splitSlashAux : List Char → List Char → List (List Char)
  | [], cur => [cur.reverse]
  | c :: rest, cur =>
    if c = '/' then cur.reverse :: splitSlashAux rest []
    else splitSlashAux rest (c :: cur)

/-- Split a path at every separator (Go `strings.Split(p, "/")`). -/
def splitSlash (p : String) : List String :=
  (splitSlashAux p.data []).map String.mk

/-- Join path elements with separators (Go `strings.Join(l, "/")`). -/
def joinSlash : List String → String
  | [] => ""
  | [s] => s
  | s :: rest => s ++ "/" ++ joinSlash rest

/-- Element loop of Go `path/filepath.Clean` (unix): skip empty and `.`
elements, resolve `..` against the output stack. -/
def cleanAux (rooted : Bool) : List String → List String → List String
  | [], out => out.reverse
  | e :: rest, out =>
    if e = "" || e = "." then cleanAux rooted rest out
    else if e = ".." then
      match out with
      | o :: os =>
        if o = ".." then cleanAux rooted rest (e :: o :: os)
        else cleanAux rooted rest os
      | [] =>
        if rooted then cleanAux rooted rest []
        else cleanAux rooted rest [".."]
    else cleanAux rooted rest (e :: out)

/-- Go `filepath.Clean` for slash paths. -/
def goClean (p : String) : String :=
  if p = "" then "."
  else
    let rooted := goIsAbs p
    let body := joinSlash (cleanAux rooted (splitSlash p) [])
    if rooted then "/" ++ body
    else if body = "" then "." else body

/-- Go `filepath.Join(a, b)`: empty elements are dropped, the rest joined
with a separator and cleaned. -/
def goJoin (a b : String) : String :=
  if a = "" then (if b = "" then "" else goClean b)
  else if b = "" then goClean a
  else goClean (a ++ "/" ++ b)

/-- The file component of Go `filepath.Split(p)` (everything after the last
separator). -/
def splitFile (p : String) : String :=
  ((splitSlash p).getLast?).getD p

/-- One instruction of a raw stage, as relevant to
`getBuilderCopiesInStage`: a `WORKDIR` with its (substituted) argument, a
`COPY` with its flag words and its source/destination arguments, or any
other instruction (ignored by the `switch`). -/
inductive Instruction where
  | workdir (dir : String)
  | copy (flags : List String) (args : List String)
  | other
deriving DecidableEq, Repr

/-- A stage as produced by `imagebuilder.NewStages` (after substitution and
target truncation): original name, substituted base-image word, and the
instruction children of its AST node. -/
structure RawStage where
  name : String
  fromImage : String
  instrs : List Instruction
deriving DecidableEq, Repr

/-- The error kinds `Parse` produces (the `imagebuilder` parse errors stay
with the external library). -/
inductive CfError where
  | ambiguousRelativePath
deriving DecidableEq, Repr

/-- The flag scan of `parseCopy`: the first flag starting with `--from=`
selects the copy's origin (later flags are never reached because the Go loop
returns inside that iteration). -/
def findFromFlag (flags : List String) : Option String :=
  match flags with
  | [] => none
  | fl :: rest =>
    if hasPrefixGo fl "--from=" then some (trimPrefixGo fl "--from=")
    else findFromFlag rest

/-- Outcome of `parseCopy`: a builder-type copy, `none` for a context copy
(no `--from` flag), or the `AmbiguousRelativePath` error. -/
inductive CopyParseOutcome where
  | ok (cp : Option Copy)
  | err (e : CfError)
deriving DecidableEq, Repr

/-- Embeds `parseCopy` from `pkg/containerfile/containerfile.go` (lines 208–266).
A relative destination with no working directory established fails; a
relative directory-target destination (trailing separator or bare `.`/`..`)
is joined onto the working directory and keeps a trailing separator unless
the result is the root. -/
def parseCopy (flags : List String) (args : List String) (workdir : String)
    (stageNames : List String) : CopyParseOutcome :=
  match findFromFlag flags with
  | none => .ok none
  | some from1 =>
    let sources := args.dropLast
    let destination := (args.getLast?).getD ""
    let resolved : CopyParseOutcome :=
      if goIsAbs destination then
        .ok (some ⟨sources, destination, from1,
          if stageNames.contains from1 then .builder else .external⟩)
      else if workdir = "" then .err .ambiguousRelativePath
      else
        let destFile := splitFile destination
        let destIsDir := destFile = "" || destFile = ".." || destFile = "."
        let dest1 :=
          if destIsDir then
            let d := goJoin workdir destination
            if d = "/" then d else d ++ "/"
          else goJoin workdir destination
        .ok (some ⟨sources, dest1, from1,
          if stageNames.contains from1 then .builder else .external⟩)
    resolved

/-- Outcome of `getBuilderCopiesInStage`. -/
inductive CopiesParseOutcome where
  | ok (cps : List Copy)
  | err (e : CfError)
deriving DecidableEq, Repr

/-- The instruction loop of `getBuilderCopiesInStage`: tracks the per-stage
working directory (starting empty), replacing it on an absolute `WORKDIR`,
joining a relative one onto it (failing when none is set), and collecting
builder-type copies. -/
def builderCopiesAux (stageNames : List String) :
    String → List Instruction → List Copy → CopiesParseOutcome
  | _, [], acc => .ok acc
  | workdir, ins :: rest, acc =>
    match ins with
    | .workdir dirPath =>
      if goIsAbs dirPath then builderCopiesAux stageNames dirPath rest acc
      else if workdir = "" then .err .ambiguousRelativePath
      else builderCopiesAux stageNames (goJoin workdir dirPath) rest acc
    | .copy flags args =>
      match parseCopy flags args workdir stageNames with
      | .err e => .err e
      | .ok none => builderCopiesAux stageNames workdir rest acc
      | .ok (some cp) => builderCopiesAux stageNames workdir rest (acc ++ [cp])
    | .other => builderCopiesAux stageNames workdir rest acc

/-- Embeds `getBuilderCopiesInStage` from `pkg/containerfile/containerfile.go`
(lines 160–199). -/
def getBuilderCopiesInStage (stageNames : List String)
    (instrs : List Instruction) : CopiesParseOutcome :=
  builderCopiesAux stageNames "" instrs []

/-- Embeds `mapAliasesToPullspecs`: maps a stage alias to its (substituted)
base-image word, over the non-final stages in order (a later duplicate alias
overwrites), with Go's zero-value `""` for a missing key. -/
def mapAliasesToPullspecs (raws : List RawStage) : String → String :=
  fun a => raws.dropLast.foldl (fun acc r => if r.name = a then r.fromImage else acc) ""

/-- Outcome of `Parse`: the stage list, or an error together with the stages
parsed so far (the Go code returns the partial `res` with the error), or a
panic on an empty raw stage list (`stages[:len(stages)-1]`). -/
inductive StagesOutcome where
  | ok (ss : List Stage)
  | err (partialStages : List Stage) (e : CfError)
  | panic1
deriving DecidableEq, Repr

/-- The stage loop of `Parse`: append the stage's original name to
`stageNames` (before any renaming), rename the last stage to the final-stage
sentinel, parse its builder copies against the names seen so far, and look
its pullspec up under the (possibly renamed) alias. -/
def parseStagesAux (allLen : Nat) (pullspecOf : String → String) :
    Nat → List String → List RawStage → List Stage → StagesOutcome
  | _, _, [], acc => .ok acc
  | idx, stageNames, r :: rest, acc =>
    let stageNames1 := stageNames ++ [r.name]
    let name1 := if idx = allLen - 1 then FinalStage else r.name
    match getBuilderCopiesInStage stageNames1 r.instrs with
    | .err e => .err acc e
    | .ok cps =>
      parseStagesAux allLen pullspecOf (idx + 1) stageNames1 rest
        (acc ++ [⟨name1, pullspecOf name1, cps⟩])

/-- Embeds `Parse` from `pkg/containerfile/containerfile.go` (lines 63–114), from
the point where the external `imagebuilder` library has produced the
substituted, target-truncated raw stage list. -/
def parseStages (raws : List RawStage) : StagesOutcome :=
  match raws with
  | [] => .panic1
  | _ => parseStagesAux raws.length (mapAliasesToPullspecs raws) 0 [] raws []

/-! ## Scan orchestration (`pkg/scan.go`, `Scan`)

`setupStore` and `scanSource` perform I/O against the store, the filesystem
and syft; they are modelled as oracles: `storeOk` is the outcome of
`setupStore`, and `scanner` maps a `packageSource` to either its package
items or a failure (`none`). -/

/-- Embeds `PackageMetadataItem` from `pkg/scan.go` (only the fields are carried;
their values come from the external syft scanner). -/
structure PackageMetadataItem where
  PackageURL : String
  Checksums : List String
  DependencyOfPURL : String
  OriginType : String
  Pullspec : String
  StageAlias : String
deriving DecidableEq, Repr

/-- Embeds `PackageMetadata` from `pkg/scan.go`. -/
structure PackageMetadata where
  Packages : List PackageMetadataItem
deriving DecidableEq, Repr

/-- Error cases `Scan` can return. -/
inductive ScanErr where
  | storeSetup
  | scanSourceFailed
deriving DecidableEq, Repr

/-- Outcome of `Scan`: a Go `(PackageMetadata, error)` return, or a panic
propagated out of `getPackageSources`. -/
inductive ScanOutcome where
  | ret (res : PackageMetadata) (err : Option ScanErr)
  | panic1
deriving DecidableEq, Repr

/-- The `for _, pkgSource := range getPackageSources(stages)` loop of `Scan`:
on the first failing source, return `PackageMetadata{}` (no packages) with
the error; otherwise append the items of every source. -/
def scanLoop (scanner : packageSource → Option (List PackageMetadataItem)) :
    List packageSource → List PackageMetadataItem → ScanOutcome
  | [], acc => .ret ⟨acc⟩ none
  | s :: rest, acc =>
    match scanner s with
    | none => .ret ⟨[]⟩ (some .scanSourceFailed)
    | some items => scanLoop scanner rest (acc ++ items)

/-- Embeds `Scan` from `pkg/scan.go` (lines 79–99). -/
def Scan (storeOk : Bool)
    (scanner : packageSource → Option (List PackageMetadataItem))
    (stages : List Stage) (fuel : Nat) : ScanOutcome :=
  if storeOk = false then .ret ⟨[]⟩ (some .storeSetup)
  else
    match getPackageSources stages fuel with
    | .ok srcs => scanLoop scanner srcs []
    | _ => .panic1

/-! ## Claim-side descriptions used by the theorems -/

/-- The copies of a stage the trace loop recurses into: those whose
destination has the traced source as a string prefix. -/
def matchingCopies (source : String) (cps : List Copy) : List Copy :=
  cps.filter fun cp => hasPrefixGo cp.Destination source

/-- Processing exactly the matching copies, in order: for each, recurse on
each of its sources in the stage its `from` field resolves to. -/
def traceMatchedF (stages : List Stage)
    (f : String → Option Nat → Acc → TraceOutcome) :
    List Copy → Acc → TraceOutcome
  | [], acc => .ok acc
  | cp :: rest, acc =>
    match traceListF f cp.Sources (aliasToStageIdx stages cp.From) acc with
    | .ok a1 => traceMatchedF stages f rest a1
    | .nilDeref => .nilDeref
    | .outOfFuel => .outOfFuel

/-- Is an accumulator key an external occurrence key? -/
def isExtKey : StageKey → Bool
  | .external _ _ => true
  | .builder _ => false

/-- The external entries of an accumulator. -/
def accExt (acc : Acc) : Acc := acc.filter fun p => isExtKey p.1

/-- The external copy occurrences of a final-stage copy list: one
`(imageRef, sourcePath)` pair per source of each copy whose `from` is not a
declared builder alias, in order. -/
def extOccs (stages : List Stage) : List Copy → List (String × String)
  | [] => []
  | cp :: rest =>
    (if aliasToStageIdx stages cp.From = none
     then cp.Sources.map fun s => (cp.From, s) else []) ++ extOccs stages rest

/-- Turn occurrences into accumulator entries, numbering them from `n`. -/
def numberExt : List (String × String) → Nat → Acc
  | [], _ => []
  | e :: rest, n => (.external n e.1, [e.2]) :: numberExt rest (n + 1)

/-- The accumulator after deleting builder keys `i, …, i+m-1` in order. -/
def deleteRange (acc : Acc) (i : Nat) : Nat → Acc
  | 0 => acc
  | m + 1 => deleteRange (accDelete acc (.builder i)) (i + 1) m

/-- A key is acceptable for a stage list with `n1` non-final stages: an
external occurrence key, or a builder key pointing below the final stage. -/
def keyOK (n1 : Nat) (k : StageKey) : Prop :=
  isExtKey k = true ∨ ∃ j, k = .builder j ∧ j < n1

/-- The accumulator invariant maintained by the tracing code: every key is
acceptable and keys are pairwise distinct (as in a Go map). -/
def GoodAcc (n1 : Nat) (acc : Acc) : Prop :=
  (∀ p ∈ acc, keyOK n1 p.1) ∧ (acc.map Prod.fst).Nodup

/-- All external occurrence counters in the accumulator are below `n`. -/
def extCounterOK (n : Nat) (acc : Acc) : Prop :=
  ∀ m f, StageKey.external m f ∈ (accExt acc).map Prod.fst → m < n

/-- A stage's instruction list contains a relative-path `WORKDIR`, or a
`COPY` carrying a `--from` flag with a relative destination, before any
absolute `WORKDIR` has been established in that stage. -/
def relBeforeAbs (instrs : List Instruction) : Prop :=
  ∃ pre ins post, instrs = pre ++ ins :: post
    ∧ (∀ d, Instruction.workdir d ∈ pre → goIsAbs d = false)
    ∧ ((∃ d, ins = .workdir d ∧ goIsAbs d = false)
       ∨ (∃ flags args f1, ins = .copy flags args
            ∧ findFromFlag flags = some f1
            ∧ goIsAbs ((args.getLast?).getD "") = false))

/-- The self-referencing stage list of the C10 non-termination example:
stage `a` copies `/x` from itself onto destination `/x`, which has the
traced source as a prefix. -/
def c10Stages : List Stage :=
  [⟨"a", "img", [⟨["/x"], "/x", "a", .builder⟩]⟩, ⟨FinalStage, "", []⟩]

/-- The C2 failing input: builder stage `b` contains a copy whose `from` is
the external reference `ext.io/img:tag` (not a declared alias) and whose
destination `/app/x` starts with the traced path; the final stage copies
`/app/x` from `b`. -/
def c2Stages : List Stage :=
  [⟨"b", "base", [⟨["/x"], "/app/x", "ext.io/img:tag", .external⟩]⟩,
   ⟨FinalStage, "", [⟨["/app/x"], "/app/x", "b", .builder⟩]⟩]

/-- Whether an image qualifies as an intermediate-layer candidate source:
unnamed, not the builder image itself, and its top layer's parent chain
reaches the builder layer. -/
def candidateImg (store : GoStore) (bl : GoLayer) (fuel : Nat)
    (img : GoImage) : Prop :=
  img.Names = [] ∧ img.TopLayer ≠ bl.ID ∧
    chainWalk store bl.ID fuel img.TopLayer = .reached

end Capo


namespace Capo

/-! ## Helper lemmas -/

theorem traceSource_none (stages : List Stage) (fuel : Nat) (s : String)
    (acc : Acc) : traceSource stages fuel s none acc = .nilDeref := by
  cases fuel <;> rfl

theorem get?_dropLast {α : Type} (l : List α) (j : Nat) (h : j + 1 < l.length) :
    l.dropLast.get? j = l.get? j := by
  induction l generalizing j with
  | nil => simp at h
  | cons a l ih =>
    cases l with
    | nil => simp at h
    | cons b l2 =>
      cases j with
      | zero => rfl
      | succ j2 =>
        have h2 : j2 + 1 < (b :: l2).length := by
          simpa using Nat.lt_of_succ_lt_succ h
        simpa using ih j2 h2

theorem accGet_accAppend_self (acc : Acc) (k : StageKey) (s : String) :
    accGet (accAppend acc k s) k = accGet acc k ++ [s] := by
  induction acc with
  | nil => simp [accAppend, accGet]
  | cons p rest ih =>
    obtain ⟨k0, l⟩ := p
    by_cases h : k0 = k
    · subst h; simp [accAppend, accGet]
    · simp [accAppend, accGet, h, ih]

theorem matchingCopies_eq_nil_iff (source : String) (cps : List Copy) :
    matchingCopies source cps = [] ↔
      (cps.any fun cp => hasPrefixGo cp.Destination source) = false := by
  simp [matchingCopies, List.filter_eq_nil_iff, List.any_eq_false]

theorem traceCopiesF_eq_matched (stages : List Stage)
    (f : String → Option Nat → Acc → TraceOutcome) (source : String)
    (cps : List Copy) (acc : Acc) :
    traceCopiesF stages f source cps acc =
      traceMatchedF stages f (matchingCopies source cps) acc := by
  induction cps generalizing acc with
  | nil => rfl
  | cons cp rest ih =>
    cases h : hasPrefixGo cp.Destination source with
    | true =>
      cases hr : traceListF f cp.Sources (aliasToStageIdx stages cp.From) acc <;>
        simp [traceCopiesF, matchingCopies, List.filter_cons, h, hr,
          traceMatchedF, ih]
    | false =>
      simp [traceCopiesF, matchingCopies, List.filter_cons, h, traceMatchedF, ih]

/-! ## C1 -/

/-- Claim C1 (amended): tracing a source path in stage `i` attributes the path
to stage `i` directly exactly when the path ends with a separator or no copy
in the stage has a destination of which the traced path is a string prefix
(`strings.HasPrefix(cp.Destination, source)`); otherwise it only recurses,
for every copy whose destination starts with the traced path, on each of
that copy's sources in the stage named by that copy's `from` field. -/
theorem c1_trace_step (stages : List Stage) (fuel : Nat) (source : String)
    (i : Nat) (st : Stage) (acc : Acc) (hst : stages.get? i = some st) :
    (hasSuffixGo source "/" = false → matchingCopies source st.Copies = [] →
      traceSource stages (fuel + 1) source (some i) acc =
        .ok (accAppend acc (.builder i) source))
    ∧ (hasSuffixGo source "/" = true →
      traceSource stages (fuel + 1) source (some i) acc =
        (match traceMatchedF stages (traceSource stages fuel)
            (matchingCopies source st.Copies) acc with
         | .ok a1 => .ok (accAppend a1 (.builder i) source)
         | .nilDeref => .nilDeref
         | .outOfFuel => .outOfFuel))
    ∧ (hasSuffixGo source "/" = false → matchingCopies source st.Copies ≠ [] →
      traceSource stages (fuel + 1) source (some i) acc =
        traceMatchedF stages (traceSource stages fuel)
          (matchingCopies source st.Copies) acc) := by
  have hunf : traceSource stages (fuel + 1) source (some i) acc =
      (match stages.get? i with
       | none => .nilDeref
       | some st =>
         let found := st.Copies.any fun cp => hasPrefixGo cp.Destination source
         match traceCopiesF stages (traceSource stages fuel) source st.Copies acc with
         | .ok a1 =>
           if hasSuffixGo source "/" || !found then
             .ok (accAppend a1 (.builder i) source)
           else .ok a1
         | .nilDeref => .nilDeref
         | .outOfFuel => .outOfFuel) := rfl
  rw [hst] at hunf
  simp only [traceCopiesF_eq_matched] at hunf
  refine ⟨?_, ?_, ?_⟩
  · intro hdir hnil
    have hfound := (matchingCopies_eq_nil_iff source st.Copies).mp hnil
    rw [hunf, hnil, hfound, hdir]
    rfl
  · intro hdir
    rw [hunf, hdir]
    cases traceMatchedF stages (traceSource stages fuel)
        (matchingCopies source st.Copies) acc <;> rfl
  · intro hdir hne
    have hfound : (st.Copies.any fun cp => hasPrefixGo cp.Destination source) = true := by
      cases h : st.Copies.any fun cp => hasPrefixGo cp.Destination source
      · exact absurd ((matchingCopies_eq_nil_iff source st.Copies).mpr h) hne
      · rfl
    rw [hunf, hfound, hdir]
    cases traceMatchedF stages (traceSource stages fuel)
        (matchingCopies source st.Copies) acc <;> rfl

/-- Witness for `c1_trace_step`: a stage with no copies, a file path. -/
theorem c1_trace_step_witness :
    ([⟨"A", "imgA", []⟩, ⟨FinalStage, "", []⟩] : List Stage).get? 0 =
      some ⟨"A", "imgA", []⟩
    ∧ traceSource [⟨"A", "imgA", []⟩, ⟨FinalStage, "", []⟩] 4 "/x" (some 0) [] =
      .ok [(.builder 0, ["/x"])] :=
  ⟨by decide,
    ((c1_trace_step [⟨"A", "imgA", []⟩, ⟨FinalStage, "", []⟩] 3 "/x" 0
        ⟨"A", "imgA", []⟩ [] (by decide)).1 (by decide) (by decide)).trans
      (by decide)⟩

/-! ## C4 -/

/-- Claim C4: a traced source path that ends with a separator is always
attributed to the stage in which the directory copy occurs, even when copies
of that stage are recursed into; concretely, when stage `B` copies
`/usr/bin/x` from `A` to `/app/x` and `/bin/*` from `A` to `/app/`, and the
final stage copies `/app/` from `B`, the masks are
`A ↦ ["/usr/bin/x", "/bin/*"]` and `B ↦ ["/app/"]`. -/
theorem c4_directory_attribution :
    (∀ (stages : List Stage) (fuel : Nat) (source : String) (i : Nat)
        (acc a : Acc),
      hasSuffixGo source "/" = true →
      traceSource stages fuel source (some i) acc = .ok a →
      source ∈ accGet a (.builder i))
    ∧ getPackageSources
        [⟨"A", "imgA", []⟩,
         ⟨"B", "imgB",
          [⟨["/usr/bin/x"], "/app/x", "A", .builder⟩,
           ⟨["/bin/*"], "/app/", "A", .builder⟩]⟩,
         ⟨FinalStage, "", [⟨["/app/"], "/app/", "B", .builder⟩]⟩] 9 =
      .ok [⟨"A", "imgA", ["/usr/bin/x", "/bin/*"]⟩,
           ⟨"B", "imgB", ["/app/"]⟩] := by
  refine ⟨?_, by decide⟩
  intro stages fuel source i acc a hdir h
  cases fuel with
  | zero => exact absurd h (by simp [traceSource])
  | succ fuel1 =>
    have hunf : traceSource stages (fuel1 + 1) source (some i) acc =
        (match stages.get? i with
         | none => .nilDeref
         | some st =>
           let found := st.Copies.any fun cp => hasPrefixGo cp.Destination source
           match traceCopiesF stages (traceSource stages fuel1) source st.Copies acc with
           | .ok a1 =>
             if hasSuffixGo source "/" || !found then
               .ok (accAppend a1 (.builder i) source)
             else .ok a1
           | .nilDeref => .nilDeref
           | .outOfFuel => .outOfFuel) := rfl
    rw [hunf] at h
    cases hst : stages.get? i with
    | none => rw [hst] at h; exact absurd h (by simp)
    | some st =>
      rw [hst] at h
      simp only [hdir, Bool.true_or, if_true] at h
      cases hc : traceCopiesF stages (traceSource stages fuel1) source st.Copies acc with
      | ok a1 =>
        rw [hc] at h
        cases h
        simp [accGet_accAppend_self]
      | nilDeref => rw [hc] at h; exact absurd h (by simp)
      | outOfFuel => rw [hc] at h; exact absurd h (by simp)

/-- Witness for `c4_directory_attribution`: tracing `/app/` in stage `B` of
the concrete scenario puts `/app/` into `B`'s accumulated mask. -/
theorem c4_directory_attribution_witness :
    "/app/" ∈
      accGet [(StageKey.builder 0, ["/usr/bin/x", "/bin/*"]),
              (StageKey.builder 1, ["/app/"])] (.builder 1) :=
  c4_directory_attribution.1
    [⟨"A", "imgA", []⟩,
     ⟨"B", "imgB",
      [⟨["/usr/bin/x"], "/app/x", "A", .builder⟩,
       ⟨["/bin/*"], "/app/", "A", .builder⟩]⟩,
     ⟨FinalStage, "", [⟨["/app/"], "/app/", "B", .builder⟩]⟩]
    9 "/app/" 1 [] _ (by decide) (by decide)

/-! ## C5 -/

/-- Claim C5 (amended): the inclusion test normalizes the candidate path to
start with a separator and includes it if and only if some mask entry is a
literal string prefix of the normalized path; the empty mask includes
nothing.  (No glob matching is performed.) -/
theorem c5_includes_iff (sources : List String) (path : String) :
    (includes sources path = true ↔
      ∃ src ∈ sources,
        hasPrefixGo (if hasPrefixGo path "/" then path else "/" ++ path) src = true)
    ∧ includes [] path = false := by
  constructor
  · simp [includes, List.any_eq_true]
  · simp [includes]

/-- Claim C5 counterexample: the mask entry `/lib/*.so` matches `/lib/a.so` as
a glob pattern, so the claim as stated includes the path, but `includes`
performs no glob matching and rejects it. -/
theorem c5_counterexample :
    specIncludes ["/lib/*.so"] "/lib/a.so" = true
    ∧ includes ["/lib/*.so"] "/lib/a.so" = false := by
  decide

/-! ## C2 -/

/-! ## C9 -/

theorem scanLoop_err_empty
    (scanner : packageSource → Option (List PackageMetadataItem)) :
    ∀ (srcs : List packageSource) (acc : List PackageMetadataItem)
      (res : PackageMetadata) (e : ScanErr),
      scanLoop scanner srcs acc = .ret res (some e) → res.Packages = [] := by
  intro srcs
  induction srcs with
  | nil => intro acc res e h; exact absurd h (by simp [scanLoop])
  | cons s rest ih =>
    intro acc res e h
    cases hs : scanner s with
    | none =>
      simp only [scanLoop, hs] at h
      cases h
      rfl
    | some items =>
      simp only [scanLoop, hs] at h
      exact ih (acc ++ items) res e h

theorem scanLoop_fails
    (scanner : packageSource → Option (List PackageMetadataItem)) :
    ∀ (srcs : List packageSource) (acc : List PackageMetadataItem)
      (s : packageSource), s ∈ srcs → scanner s = none →
      ∃ e, scanLoop scanner srcs acc = .ret ⟨[]⟩ (some e) := by
  intro srcs
  induction srcs with
  | nil => intro acc s hs; exact absurd hs (by simp)
  | cons s0 rest ih =>
    intro acc s hs hnone
    cases hs0 : scanner s0 with
    | none => exact ⟨.scanSourceFailed, by simp [scanLoop, hs0]⟩
    | some items =>
      rcases List.mem_cons.mp hs with heq | hmem
      · subst heq; rw [hs0] at hnone; cases hnone
      · obtain ⟨e, he⟩ := ih (acc ++ items) s hmem hnone
        exact ⟨e, by simp [scanLoop, hs0, he]⟩

/-- Claim C9: whenever `Scan` returns an error, the returned result carries no
packages at all; and if some package source in the resolved list fails to
scan, `Scan` does return an error (with the empty result) — no packages from
previously processed sources survive. -/
theorem c9_scan_all_or_nothing :
    (∀ (storeOk : Bool)
        (scanner : packageSource → Option (List PackageMetadataItem))
        (stages : List Stage) (fuel : Nat) (res : PackageMetadata)
        (e : ScanErr),
      Scan storeOk scanner stages fuel = .ret res (some e) → res.Packages = [])
    ∧ (∀ (storeOk : Bool)
        (scanner : packageSource → Option (List PackageMetadataItem))
        (stages : List Stage) (fuel : Nat) (srcs : List packageSource)
        (s : packageSource),
      getPackageSources stages fuel = .ok srcs → s ∈ srcs →
      scanner s = none →
      ∃ res e, Scan storeOk scanner stages fuel = .ret res (some e)
        ∧ res.Packages = []) := by
  constructor
  · intro storeOk scanner stages fuel res e h
    cases storeOk with
    | false =>
      simp only [Scan, if_pos rfl] at h
      cases h
      rfl
    | true =>
      simp only [Scan] at h
      cases hg : getPackageSources stages fuel with
      | ok srcs =>
        rw [hg] at h
        exact scanLoop_err_empty scanner srcs [] res e h
      | nilDeref => rw [hg] at h; exact absurd h (by simp)
      | outOfFuel => rw [hg] at h; exact absurd h (by simp)
      | panic1 => rw [hg] at h; exact absurd h (by simp)
  · intro storeOk scanner stages fuel srcs s hg hs hnone
    cases storeOk with
    | false => exact ⟨⟨[]⟩, .storeSetup, by simp [Scan], rfl⟩
    | true =>
      obtain ⟨e, he⟩ := scanLoop_fails scanner srcs [] s hs hnone
      exact ⟨⟨[]⟩, e, by simp only [Scan, hg]; simpa using he, rfl⟩

/-- Witness for `c9_scan_all_or_nothing`: a failing scanner on a single
external source. -/
theorem c9_scan_all_or_nothing_witness :
    ∃ res e,
      Scan true (fun _ => none)
        [⟨FinalStage, "", [⟨["/a"], "/a", "x", .external⟩]⟩] 9 =
        .ret res (some e) ∧ res.Packages = [] :=
  c9_scan_all_or_nothing.2 true (fun _ => none)
    [⟨FinalStage, "", [⟨["/a"], "/a", "x", .external⟩]⟩] 9
    [⟨"", "x", ["/a"]⟩] ⟨"", "x", ["/a"]⟩ (by decide) (by decide) rfl

/-! ## C10 -/

theorem aliasToStageIdx_lt (stages : List Stage) (a : String) (j : Nat) :
    aliasToStageIdx stages a = some j → j < stages.length - 1 := by
  suffices h : ∀ (l : List Nat) (init : Option Nat),
      (∀ x ∈ l, x < stages.length - 1) →
      (∀ k, init = some k → k < stages.length - 1) →
      ∀ k, l.foldl (fun acc i =>
          match stages.get? i with
          | some st => if st.Alias = a then some i else acc
          | none => acc) init = some k →
        k < stages.length - 1 by
    intro hsome
    exact h (List.range (stages.length - 1)) none
      (fun x hx => List.mem_range.mp hx) (fun k hk => by cases hk) j hsome
  intro l
  induction l with
  | nil => intro init _ hinit k hk; exact hinit k hk
  | cons x xs ih =>
    intro init hmem hinit k hk
    refine ih _ (fun y hy => hmem y (by simp [hy])) ?_ k hk
    intro k2 hk2
    dsimp only at hk2
    cases hgx : stages.get? x with
    | none => rw [hgx] at hk2; exact hinit k2 hk2
    | some st =>
      rw [hgx] at hk2
      dsimp only at hk2
      by_cases hA : st.Alias = a
      · rw [if_pos hA] at hk2; cases hk2; exact hmem x (by simp)
      · rw [if_neg hA] at hk2; exact hinit k2 hk2

/-- One-step unfolding of `traceSource` at positive fuel and a non-nil
stage pointer. -/
theorem traceSource_succ_unfold (stages : List Stage) (fuel : Nat)
    (source : String) (i : Nat) (acc : Acc) :
    traceSource stages (fuel + 1) source (some i) acc =
      (match stages.get? i with
       | none => .nilDeref
       | some st =>
         match traceCopiesF stages (traceSource stages fuel) source st.Copies acc with
         | .ok a1 =>
           if hasSuffixGo source "/" ||
               !(st.Copies.any fun cp => hasPrefixGo cp.Destination source) then
             .ok (accAppend a1 (.builder i) source)
           else .ok a1
         | .nilDeref => .nilDeref
         | .outOfFuel => .outOfFuel) := rfl

theorem traceListF_cons (f : String → Option Nat → Acc → TraceOutcome)
    (s : String) (rest : List String) (curr : Option Nat) (acc : Acc) :
    traceListF f (s :: rest) curr acc =
      (match f s curr acc with
       | .ok a1 => traceListF f rest curr a1
       | .nilDeref => .nilDeref
       | .outOfFuel => .outOfFuel) := rfl

theorem traceCopiesF_cons_pos (stages : List Stage)
    (f : String → Option Nat → Acc → TraceOutcome) (source : String)
    (cp : Copy) (rest : List Copy) (acc : Acc)
    (h : hasPrefixGo cp.Destination source = true) :
    traceCopiesF stages f source (cp :: rest) acc =
      (match traceListF f cp.Sources (aliasToStageIdx stages cp.From) acc with
       | .ok a1 => traceCopiesF stages f source rest a1
       | .nilDeref => .nilDeref
       | .outOfFuel => .outOfFuel) := by
  simp [traceCopiesF, h]

theorem traceListF_ok (f : String → Option Nat → Acc → TraceOutcome)
    (curr : Option Nat)
    (hf : ∀ s acc, ∃ a, f s curr acc = .ok a) :
    ∀ (srcs : List String) (acc : Acc),
      ∃ a, traceListF f srcs curr acc = .ok a := by
  intro srcs
  induction srcs with
  | nil => intro acc; exact ⟨acc, rfl⟩
  | cons s rest ih =>
    intro acc
    obtain ⟨a1, h1⟩ := hf s acc
    obtain ⟨a2, h2⟩ := ih a1
    exact ⟨a2, by rw [traceListF_cons, h1]; simpa using h2⟩

theorem traceCopiesF_ok (stages : List Stage)
    (f : String → Option Nat → Acc → TraceOutcome) (source : String) :
    ∀ (cps : List Copy),
      (∀ cp ∈ cps, ∀ acc, ∃ a,
        traceListF f cp.Sources (aliasToStageIdx stages cp.From) acc = .ok a) →
      ∀ acc, ∃ a, traceCopiesF stages f source cps acc = .ok a := by
  intro cps
  induction cps with
  | nil => intro _ acc; exact ⟨acc, rfl⟩
  | cons cp rest ih =>
    intro hcp acc
    cases hpre : hasPrefixGo cp.Destination source with
    | false =>
      obtain ⟨a, ha⟩ := ih (fun c hc => hcp c (by simp [hc])) acc
      exact ⟨a, by simpa [traceCopiesF, hpre] using ha⟩
    | true =>
      obtain ⟨a1, h1⟩ := hcp cp (by simp) acc
      obtain ⟨a2, h2⟩ := ih (fun c hc => hcp c (by simp [hc])) a1
      exact ⟨a2, by
        rw [traceCopiesF_cons_pos stages f source cp rest acc hpre, h1]
        simpa using h2⟩

theorem traceSource_ok_of_pre (stages : List Stage)
    (hpre : ∀ i st, stages.get? i = some st → i + 1 < stages.length →
      ∀ cp ∈ st.Copies, ∃ j, aliasToStageIdx stages cp.From = some j ∧ j < i) :
    ∀ (fuel i : Nat), i < fuel → i + 1 < stages.length →
      ∀ (source : String) (acc : Acc),
        ∃ a, traceSource stages fuel source (some i) acc = .ok a := by
  intro fuel
  induction fuel with
  | zero => intro i hi _ _ _; exact absurd hi (Nat.not_lt_zero i)
  | succ f ihf =>
    intro i hi hilen source acc
    cases hst : stages.get? i with
    | none => exact absurd (List.get?_eq_none.mp hst) (by omega)
    | some st =>
      have hcps : ∀ cp ∈ st.Copies, ∀ acc2, ∃ a,
          traceListF (traceSource stages f) cp.Sources
            (aliasToStageIdx stages cp.From) acc2 = .ok a := by
        intro cp hcp acc2
        obtain ⟨j, hj, hji⟩ := hpre i st hst hilen cp hcp
        have hjlen : j + 1 < stages.length := by
          have := aliasToStageIdx_lt stages cp.From j hj
          omega
        rw [hj]
        exact traceListF_ok (traceSource stages f) (some j)
          (fun s acc3 => ihf j (by omega) hjlen s acc3) cp.Sources acc2
      obtain ⟨a1, h1⟩ :=
        traceCopiesF_ok stages (traceSource stages f) source st.Copies hcps acc
      cases hc : (hasSuffixGo source "/" ||
          !(st.Copies.any fun cp => hasPrefixGo cp.Destination source)) with
      | true =>
        exact ⟨accAppend a1 (.builder i) source,
          by rw [traceSource_succ_unfold, hst]; simp [h1, hc]⟩
      | false =>
        exact ⟨a1, by rw [traceSource_succ_unfold, hst]; simp [h1, hc]⟩

theorem c10_loop_aux :
    ∀ (fuel : Nat) (acc : Acc),
      traceSource c10Stages fuel "/x" (some 0) acc = .outOfFuel := by
  intro fuel
  induction fuel with
  | zero => intro acc; rfl
  | succ f ih =>
    intro acc
    rw [traceSource_succ_unfold]
    simp only [show c10Stages.get? 0 =
      some ⟨"a", "img", [⟨["/x"], "/x", "a", .builder⟩]⟩ from rfl]
    rw [traceCopiesF_cons_pos c10Stages (traceSource c10Stages f) "/x"
      ⟨["/x"], "/x", "a", .builder⟩ [] acc (by decide)]
    simp only [show aliasToStageIdx c10Stages "a" = some 0 from rfl]
    rw [traceListF_cons, ih acc]

/-- Claim C10: `traceSource` terminates whenever every copy of every non-final
stage resolves, via `aliasToStage`, to a strictly earlier stage (fuel beyond
the stage index suffices and the trace returns normally); without the
precondition it need not terminate — on a stage whose copy names its own
alias with a destination the source is a prefix of, every fuel bound is
exhausted; and the parser classifies a copy whose `from` equals the current
stage's own alias as builder-type, so such recipes are not rejected
upstream. -/
theorem c10_trace_termination :
    (∀ (stages : List Stage),
      (∀ i st, stages.get? i = some st → i + 1 < stages.length →
        ∀ cp ∈ st.Copies, ∃ j, aliasToStageIdx stages cp.From = some j ∧ j < i) →
      ∀ (fuel i : Nat), i < fuel → i + 1 < stages.length →
      ∀ (source : String) (acc : Acc),
        ∃ a, traceSource stages fuel source (some i) acc = .ok a)
    ∧ (∀ (fuel : Nat) (acc : Acc),
        traceSource c10Stages fuel "/x" (some 0) acc = .outOfFuel)
    ∧ parseStages
        [⟨"a", "img", [.copy ["--from=a"] ["/x", "/x"]]⟩,
         ⟨"f", "scratch", []⟩] =
      .ok [⟨"a", "img", [⟨["/x"], "/x", "a", .builder⟩]⟩,
           ⟨FinalStage, "", []⟩] :=
  ⟨traceSource_ok_of_pre, c10_loop_aux, by decide⟩

/-- Witness for `c10_trace_termination`: a two-stage list whose builder
stage has no copies satisfies the precondition, and tracing returns
normally with fuel 1. -/
theorem c10_trace_termination_witness :
    ∃ a, traceSource [⟨"a", "i", []⟩, ⟨FinalStage, "", []⟩] 1 "/s" (some 0) [] =
      .ok a :=
  c10_trace_termination.1 [⟨"a", "i", []⟩, ⟨FinalStage, "", []⟩]
    (by
      intro i st hst hlen cp hcp
      have hi : i = 0 := by simp at hlen; omega
      subst hi
      have hst0 : st = ⟨"a", "i", []⟩ := by
        simpa using hst.symm
      subst hst0
      exact absurd hcp (by simp))
    1 0 (by omega) (by decide) "/s" []

/-! ## C3 accumulator lemmas -/

theorem accExt_accAppend_builder (acc : Acc) (i : Nat) (s : String) :
    accExt (accAppend acc (.builder i) s) = accExt acc := by
  induction acc with
  | nil => simp [accAppend, accExt, isExtKey]
  | cons p rest ih =>
    obtain ⟨k0, l⟩ := p
    by_cases hk : k0 = StageKey.builder i
    · subst hk
      simp [accAppend, accExt, List.filter_cons, isExtKey]
    · simp only [accAppend, if_neg hk]
      simp [accExt, List.filter_cons] at ih ⊢
      rw [ih]

theorem accAppend_entry_cases (acc : Acc) (k : StageKey) (s : String) :
    ∀ p ∈ accAppend acc k s, p.1 = k ∨ p ∈ acc := by
  induction acc with
  | nil =>
    intro p hp
    simp [accAppend] at hp
    subst hp
    exact Or.inl rfl
  | cons q rest ih =>
    obtain ⟨k0, l⟩ := q
    intro p hp
    by_cases hk : k0 = k
    · subst hk
      simp only [accAppend, if_pos rfl] at hp
      rcases List.mem_cons.mp hp with rfl | hm
      · exact Or.inl rfl
      · exact Or.inr (by simp [hm])
    · simp only [accAppend, if_neg hk] at hp
      rcases List.mem_cons.mp hp with rfl | hm
      · exact Or.inr (by simp)
      · rcases ih p hm with h1 | h2
        · exact Or.inl h1
        · exact Or.inr (by simp [h2])

theorem accAppend_keys (acc : Acc) (k : StageKey) (s : String) :
    (accAppend acc k s).map Prod.fst =
      if k ∈ acc.map Prod.fst then acc.map Prod.fst
      else acc.map Prod.fst ++ [k] := by
  induction acc with
  | nil => simp [accAppend]
  | cons q rest ih =>
    obtain ⟨k0, l⟩ := q
    by_cases hk : k0 = k
    · subst hk
      simp [accAppend]
    · simp only [accAppend, if_neg hk, List.map_cons, ih]
      have hne : ¬(k = k0) := fun h => hk h.symm
      by_cases hm : k ∈ rest.map Prod.fst
      · simp [hm, hne]
      · simp [hm, hne]

theorem goodAcc_accAppend_builder (n1 : Nat) (acc : Acc) (i : Nat)
    (s : String) (hg : GoodAcc n1 acc) (hi : i < n1) :
    GoodAcc n1 (accAppend acc (.builder i) s) := by
  constructor
  · intro p hp
    rcases accAppend_entry_cases acc (.builder i) s p hp with h1 | h2
    · exact Or.inr ⟨i, h1, hi⟩
    · exact hg.1 p h2
  · rw [accAppend_keys]
    by_cases hm : StageKey.builder i ∈ acc.map Prod.fst
    · simp only [if_pos hm]
      exact hg.2
    · simp only [if_neg hm]
      refine List.nodup_append.mpr ⟨hg.2, by simp, ?_⟩
      intro a ha hb
      simp only [List.mem_singleton] at hb
      subst hb
      exact hm ha

theorem accGet_accDelete_ne (acc : Acc) (k k2 : StageKey) (hne : k ≠ k2) :
    accGet (accDelete acc k2) k = accGet acc k := by
  induction acc with
  | nil => rfl
  | cons q rest ih =>
    obtain ⟨k0, l⟩ := q
    by_cases hk : k0 = k2
    · have hk0k : ¬(k0 = k) := fun h => hne (h.symm.trans hk)
      simp only [accDelete, if_pos hk, accGet, if_neg hk0k]
    · simp only [accDelete, if_neg hk, accGet]
      by_cases hk0 : k0 = k
      · simp [if_pos hk0]
      · simp [if_neg hk0, ih]

theorem accDelete_sublist (acc : Acc) (k : StageKey) :
    List.Sublist (accDelete acc k) acc := by
  induction acc with
  | nil => simp [accDelete]
  | cons q rest ih =>
    obtain ⟨k0, l⟩ := q
    by_cases hk : k0 = k
    · simp only [accDelete, if_pos hk]
      exact List.sublist_cons_self _ _
    · simp only [accDelete, if_neg hk]
      exact List.Sublist.cons₂ _ ih

theorem accDelete_mem (acc : Acc) (k : StageKey) :
    ∀ p ∈ accDelete acc k, p ∈ acc :=
  fun p hp => (accDelete_sublist acc k).subset hp

theorem accDelete_keys_nodup (acc : Acc) (k : StageKey)
    (h : (acc.map Prod.fst).Nodup) : ((accDelete acc k).map Prod.fst).Nodup :=
  h.sublist ((accDelete_sublist acc k).map Prod.fst)

theorem accDelete_not_mem_keys (acc : Acc) (k : StageKey)
    (h : (acc.map Prod.fst).Nodup) :
    k ∉ (accDelete acc k).map Prod.fst := by
  induction acc with
  | nil => simp [accDelete]
  | cons q rest ih =>
    obtain ⟨k0, l⟩ := q
    simp only [List.map_cons, List.nodup_cons] at h
    by_cases hk : k0 = k
    · subst hk
      simp only [accDelete, if_pos rfl]
      exact h.1
    · simp only [accDelete, if_neg hk, List.map_cons]
      intro hmem
      rcases List.mem_cons.mp hmem with heq | hm
      · exact hk heq.symm
      · exact ih h.2 hm

theorem accExt_accDelete_builder (acc : Acc) (i : Nat) :
    accExt (accDelete acc (.builder i)) = accExt acc := by
  induction acc with
  | nil => rfl
  | cons q rest ih =>
    obtain ⟨k0, l⟩ := q
    by_cases hk : k0 = StageKey.builder i
    · subst hk
      simp [accDelete, accExt, List.filter_cons, isExtKey]
    · simp only [accDelete, if_neg hk]
      simp [accExt, List.filter_cons] at ih ⊢
      rw [ih]

theorem accExt_all_ext (acc : Acc)
    (h : ∀ p ∈ acc, isExtKey p.1 = true) : accExt acc = acc :=
  List.filter_eq_self.mpr h

theorem numberExt_all_ext : ∀ (occs : List (String × String)) (n : Nat),
    ∀ p ∈ numberExt occs n, isExtKey p.1 = true := by
  intro occs
  induction occs with
  | nil => intro n p hp; simp [numberExt] at hp
  | cons e rest ih =>
    intro n p hp
    rcases List.mem_cons.mp hp with rfl | hm
    · rfl
    · exact ih (n + 1) p hm

theorem numberExt_append : ∀ (l1 l2 : List (String × String)) (n : Nat),
    numberExt (l1 ++ l2) n = numberExt l1 n ++ numberExt l2 (n + l1.length) := by
  intro l1
  induction l1 with
  | nil => intro l2 n; simp [numberExt]
  | cons e rest ih =>
    intro l2 n
    simp only [List.cons_append, numberExt, List.length_cons, List.append_eq]
    rw [ih]
    rw [show n + 1 + rest.length = n + (rest.length + 1) from by omega]

theorem numberExt_length : ∀ (occs : List (String × String)) (n : Nat),
    (numberExt occs n).length = occs.length := by
  intro occs
  induction occs with
  | nil => intro n; rfl
  | cons e rest ih => intro n; simp [numberExt, ih]

theorem traceListF_pres (n1 : Nat)
    (f : String → Option Nat → Acc → TraceOutcome) (curr : Option Nat)
    (hf : ∀ s acc a, f s curr acc = .ok a →
      accExt a = accExt acc ∧ (GoodAcc n1 acc → GoodAcc n1 a)) :
    ∀ (srcs : List String) (acc a : Acc),
      traceListF f srcs curr acc = .ok a →
      accExt a = accExt acc ∧ (GoodAcc n1 acc → GoodAcc n1 a) := by
  intro srcs
  induction srcs with
  | nil =>
    intro acc a h
    cases h
    exact ⟨rfl, id⟩
  | cons s rest ih =>
    intro acc a h
    rw [traceListF_cons] at h
    cases hs : f s curr acc with
    | ok a1 =>
      rw [hs] at h
      simp only at h
      obtain ⟨he1, hg1⟩ := hf s acc a1 hs
      obtain ⟨he2, hg2⟩ := ih a1 a h
      exact ⟨he2.trans he1, fun hg => hg2 (hg1 hg)⟩
    | nilDeref => rw [hs] at h; exact absurd h (by simp)
    | outOfFuel => rw [hs] at h; exact absurd h (by simp)

theorem traceCopiesF_pres (stages : List Stage)
    (f : String → Option Nat → Acc → TraceOutcome) (source : String)
    (hf : ∀ s curr acc a,
      (∀ j, curr = some j → j < stages.length - 1) →
      f s curr acc = .ok a →
      accExt a = accExt acc ∧
        (GoodAcc (stages.length - 1) acc → GoodAcc (stages.length - 1) a)) :
    ∀ (cps : List Copy) (acc a : Acc),
      traceCopiesF stages f source cps acc = .ok a →
      accExt a = accExt acc ∧
        (GoodAcc (stages.length - 1) acc → GoodAcc (stages.length - 1) a) := by
  intro cps
  induction cps with
  | nil =>
    intro acc a h
    cases h
    exact ⟨rfl, id⟩
  | cons cp rest ih =>
    intro acc a h
    cases hpre : hasPrefixGo cp.Destination source with
    | false =>
      rw [show traceCopiesF stages f source (cp :: rest) acc =
        traceCopiesF stages f source rest acc from by
          simp [traceCopiesF, hpre]] at h
      exact ih acc a h
    | true =>
      rw [traceCopiesF_cons_pos stages f source cp rest acc hpre] at h
      cases hl : traceListF f cp.Sources (aliasToStageIdx stages cp.From) acc with
      | ok a1 =>
        rw [hl] at h
        simp only at h
        have hcurr : ∀ j, aliasToStageIdx stages cp.From = some j →
            j < stages.length - 1 :=
          fun j hj => aliasToStageIdx_lt stages cp.From j hj
        obtain ⟨he1, hg1⟩ := traceListF_pres (stages.length - 1) f
          (aliasToStageIdx stages cp.From)
          (fun s acc2 a2 hs => hf s (aliasToStageIdx stages cp.From) acc2 a2
            hcurr hs)
          cp.Sources acc a1 hl
        obtain ⟨he2, hg2⟩ := ih a1 a h
        exact ⟨he2.trans he1, fun hg => hg2 (hg1 hg)⟩
      | nilDeref => rw [hl] at h; exact absurd h (by simp)
      | outOfFuel => rw [hl] at h; exact absurd h (by simp)

theorem traceSource_pres (stages : List Stage) :
    ∀ (fuel : Nat) (source : String) (curr : Option Nat) (acc a : Acc),
      (∀ j, curr = some j → j < stages.length - 1) →
      traceSource stages fuel source curr acc = .ok a →
      accExt a = accExt acc ∧
        (GoodAcc (stages.length - 1) acc → GoodAcc (stages.length - 1) a) := by
  intro fuel
  induction fuel with
  | zero =>
    intro source curr acc a _ h
    cases curr with
    | none => exact absurd h (by simp [traceSource])
    | some i => exact absurd h (by simp [traceSource])
  | succ f ih =>
    intro source curr acc a hcurr h
    cases curr with
    | none => exact absurd h (by simp [traceSource])
    | some i =>
      have hi : i < stages.length - 1 := hcurr i rfl
      rw [traceSource_succ_unfold] at h
      cases hst : stages.get? i with
      | none => rw [hst] at h; exact absurd h (by simp)
      | some st =>
        rw [hst] at h
        simp only at h
        cases hc : traceCopiesF stages (traceSource stages f) source
            st.Copies acc with
        | ok a1 =>
          rw [hc] at h
          simp only at h
          obtain ⟨he1, hg1⟩ := traceCopiesF_pres stages (traceSource stages f)
            source (fun s curr2 acc2 a2 hcurr2 hs =>
              ih s curr2 acc2 a2 hcurr2 hs) st.Copies acc a1 hc
          by_cases hif : (hasSuffixGo source "/" ||
              !(st.Copies.any fun cp => hasPrefixGo cp.Destination source)) = true
          · rw [if_pos hif] at h
            cases h
            refine ⟨?_, ?_⟩
            · rw [accExt_accAppend_builder, he1]
            · intro hg
              exact goodAcc_accAppend_builder (stages.length - 1) a1 i source
                (hg1 hg) hi
          · rw [if_neg hif] at h
            cases h
            exact ⟨he1, hg1⟩
        | nilDeref => rw [hc] at h; exact absurd h (by simp)
        | outOfFuel => rw [hc] at h; exact absurd h (by simp)

theorem ext_key_mem_accExt (acc : Acc) (m : Nat) (f0 : String)
    (h : StageKey.external m f0 ∈ acc.map Prod.fst) :
    StageKey.external m f0 ∈ (accExt acc).map Prod.fst := by
  obtain ⟨p, hp, hfst⟩ := List.mem_map.mp h
  refine List.mem_map.mpr ⟨p, ?_, hfst⟩
  refine List.mem_filter.mpr ⟨hp, ?_⟩
  rw [show p.1 = StageKey.external m f0 from hfst]
  rfl

theorem goodAcc_append_numberExt (n1 : Nat) :
    ∀ (occs : List (String × String)) (acc : Acc) (n : Nat),
      GoodAcc n1 acc → extCounterOK n acc →
      GoodAcc n1 (acc ++ numberExt occs n)
      ∧ extCounterOK (n + occs.length) (acc ++ numberExt occs n) := by
  intro occs
  induction occs with
  | nil =>
    intro acc n hg hc
    constructor
    · simpa [numberExt] using hg
    · simpa [numberExt] using hc
  | cons e rest ih =>
    intro acc n hg hc
    have hkeynotin : StageKey.external n e.1 ∉ acc.map Prod.fst := by
      intro hmem
      exact absurd (hc n e.1 (ext_key_mem_accExt acc n e.1 hmem)) (by omega)
    have hg1 : GoodAcc n1 (acc ++ [(StageKey.external n e.1, [e.2])]) := by
      constructor
      · intro p hp
        rcases List.mem_append.mp hp with h1 | h2
        · exact hg.1 p h1
        · simp only [List.mem_singleton] at h2
          subst h2
          exact Or.inl rfl
      · rw [List.map_append]
        refine List.nodup_append.mpr ⟨hg.2, by simp, ?_⟩
        intro a ha hb
        simp only [List.map_cons, List.map_nil, List.mem_singleton] at hb
        subst hb
        exact hkeynotin ha
    have hc1 : extCounterOK (n + 1) (acc ++ [(StageKey.external n e.1, [e.2])]) := by
      intro m f0 hmem
      rw [show accExt (acc ++ [(StageKey.external n e.1, [e.2])]) =
          accExt acc ++ [(StageKey.external n e.1, [e.2])] from by
        simp [accExt, List.filter_append, isExtKey]] at hmem
      rw [List.map_append] at hmem
      rcases List.mem_append.mp hmem with h1 | h2
      · exact Nat.lt_succ_of_lt (hc m f0 h1)
      · simp only [List.map_cons, List.map_nil, List.mem_singleton,
          StageKey.external.injEq] at h2
        omega
    obtain ⟨hg2, hc2⟩ := ih (acc ++ [(StageKey.external n e.1, [e.2])]) (n + 1)
      hg1 hc1
    have hsplit : acc ++ numberExt (e :: rest) n =
        (acc ++ [(StageKey.external n e.1, [e.2])]) ++ numberExt rest (n + 1) := by
      simp [numberExt]
    constructor
    · rw [hsplit]; exact hg2
    · rw [hsplit, show n + (e :: rest).length = n + 1 + rest.length from by
        simp; omega]
      exact hc2

theorem traceFinalSources_ext (stages : List Stage) (fuel : Nat)
    (cpFrom : String) (hext : aliasToStageIdx stages cpFrom = none) :
    ∀ (srcs : List String) (acc : Acc) (n : Nat),
      traceFinalSources stages fuel cpFrom srcs acc n =
        .ok (acc ++ numberExt (srcs.map fun s => (cpFrom, s)) n)
          (n + srcs.length) := by
  intro srcs
  induction srcs with
  | nil =>
    intro acc n
    simp [traceFinalSources, numberExt]
  | cons s rest ih =>
    intro acc n
    rw [show traceFinalSources stages fuel cpFrom (s :: rest) acc n =
      traceFinalSources stages fuel cpFrom rest
        (acc ++ [(.external n cpFrom, [s])]) (n + 1) from by
        simp [traceFinalSources, hext]]
    rw [ih]
    have hA : (acc ++ [(StageKey.external n cpFrom, [s])]) ++
        numberExt (rest.map fun s2 => (cpFrom, s2)) (n + 1) =
        acc ++ numberExt ((s :: rest).map fun s2 => (cpFrom, s2)) n := by
      simp [numberExt]
    have hB : n + 1 + rest.length = n + (s :: rest).length := by
      simp
      omega
    rw [hA, hB]

theorem traceFinalSources_builder (stages : List Stage) (fuel : Nat)
    (cpFrom : String) (j : Nat) (hj : aliasToStageIdx stages cpFrom = some j) :
    ∀ (srcs : List String) (acc : Acc) (n : Nat) (accF : Acc) (nF : Nat),
      traceFinalSources stages fuel cpFrom srcs acc n = .ok accF nF →
      accExt accF = accExt acc ∧ nF = n
      ∧ (GoodAcc (stages.length - 1) acc → GoodAcc (stages.length - 1) accF) := by
  intro srcs
  induction srcs with
  | nil =>
    intro acc n accF nF h
    simp only [traceFinalSources] at h
    cases h
    exact ⟨rfl, rfl, id⟩
  | cons s rest ih =>
    intro acc n accF nF h
    rw [show traceFinalSources stages fuel cpFrom (s :: rest) acc n =
      (match traceSource stages fuel s (some j) acc with
       | .ok a1 => traceFinalSources stages fuel cpFrom rest a1 n
       | .nilDeref => .nilDeref
       | .outOfFuel => .outOfFuel) from by
        simp [traceFinalSources, hj]] at h
    cases hs : traceSource stages fuel s (some j) acc with
    | ok a1 =>
      rw [hs] at h
      simp only at h
      obtain ⟨he1, hg1⟩ := traceSource_pres stages fuel s (some j) acc a1
        (fun j2 hj2 => by
          injection hj2 with hh
          subst hh
          exact aliasToStageIdx_lt stages cpFrom _ hj) hs
      obtain ⟨he2, hn2, hg2⟩ := ih a1 n accF nF h
      exact ⟨he2.trans he1, hn2, fun hg => hg2 (hg1 hg)⟩
    | nilDeref => rw [hs] at h; exact absurd h (by simp)
    | outOfFuel => rw [hs] at h; exact absurd h (by simp)

theorem accExt_append_numberExt (acc : Acc) (occs : List (String × String))
    (n : Nat) :
    accExt (acc ++ numberExt occs n) = accExt acc ++ numberExt occs n := by
  show (acc ++ numberExt occs n).filter (fun p => isExtKey p.1) = _
  rw [List.filter_append]
  rw [show (numberExt occs n).filter (fun p => isExtKey p.1) = numberExt occs n
    from accExt_all_ext _ (numberExt_all_ext occs n)]
  rfl

theorem traceFinalCopies_spec (stages : List Stage) (fuel : Nat) :
    ∀ (cps : List Copy) (acc : Acc) (n : Nat) (accF : Acc) (nF : Nat),
      traceFinalCopies stages fuel cps acc n = .ok accF nF →
      accExt accF = accExt acc ++ numberExt (extOccs stages cps) n
      ∧ nF = n + (extOccs stages cps).length
      ∧ ((GoodAcc (stages.length - 1) acc ∧ extCounterOK n acc) →
         (GoodAcc (stages.length - 1) accF ∧ extCounterOK nF accF)) := by
  intro cps
  induction cps with
  | nil =>
    intro acc n accF nF h
    simp only [traceFinalCopies] at h
    cases h
    exact ⟨by simp [extOccs, numberExt], by simp [extOccs], id⟩
  | cons cp rest ih =>
    intro acc n accF nF h
    rw [show traceFinalCopies stages fuel (cp :: rest) acc n =
      (match traceFinalSources stages fuel cp.From cp.Sources acc n with
       | .ok a1 n1 => traceFinalCopies stages fuel rest a1 n1
       | .nilDeref => .nilDeref
       | .outOfFuel => .outOfFuel) from rfl] at h
    cases hs : traceFinalSources stages fuel cp.From cp.Sources acc n with
    | ok a1 n1 =>
      rw [hs] at h
      simp only at h
      cases halias : aliasToStageIdx stages cp.From with
      | some j =>
        obtain ⟨he1, hn1, hg1⟩ := traceFinalSources_builder stages fuel cp.From
          j halias cp.Sources acc n a1 n1 hs
        obtain ⟨he2, hn2, hg2⟩ := ih a1 n1 accF nF h
        refine ⟨?_, ?_, ?_⟩
        · rw [he2, he1, hn1]
          simp [extOccs, halias]
        · rw [hn2, hn1]
          simp [extOccs, halias]
        · rintro ⟨hg, hc⟩
          apply hg2
          refine ⟨hg1 hg, ?_⟩
          intro m f0 hm
          rw [he1] at hm
          rw [hn1]
          exact hc m f0 hm
      | none =>
        rw [traceFinalSources_ext stages fuel cp.From halias cp.Sources acc n]
          at hs
        injection hs with hs1 hs2
        subst hs1
        subst hs2
        obtain ⟨he2, hn2, hg2⟩ := ih _ _ accF nF h
        have hocc : extOccs stages (cp :: rest) =
            (cp.Sources.map fun s => (cp.From, s)) ++ extOccs stages rest := by
          simp [extOccs, halias]
        have hlen : (cp.Sources.map fun s => (cp.From, s)).length =
            cp.Sources.length := by simp
        refine ⟨?_, ?_, ?_⟩
        · rw [he2, accExt_append_numberExt, hocc, numberExt_append,
            List.append_assoc, hlen]
        · rw [hn2, hocc]
          simp
          omega
        · rintro ⟨hg, hc⟩
          apply hg2
          have := goodAcc_append_numberExt (stages.length - 1)
            (cp.Sources.map fun s => (cp.From, s)) acc n hg hc
          rw [hlen] at this
          exact this
    | nilDeref => rw [hs] at h; exact absurd h (by simp)
    | outOfFuel => rw [hs] at h; exact absurd h (by simp)

theorem buildersAux_fst (stagesNF : List Stage) :
    ∀ (i : Nat) (acc : Acc),
      (buildersAux stagesNF i acc).1.length = stagesNF.length
      ∧ ∀ j, (buildersAux stagesNF i acc).1.get? j =
          (stagesNF.get? j).map fun st =>
            ⟨st.Alias, st.Pullspec, accGet acc (.builder (i + j))⟩ := by
  induction stagesNF with
  | nil =>
    intro i acc
    exact ⟨rfl, fun j => by simp [buildersAux]⟩
  | cons st rest ih =>
    intro i acc
    obtain ⟨ihlen, ihget⟩ := ih (i + 1) (accDelete acc (.builder i))
    refine ⟨by simp [buildersAux, ihlen], ?_⟩
    intro j
    cases j with
    | zero =>
      simp [buildersAux]
    | succ j2 =>
      have hget := ihget j2
      have hacc : accGet (accDelete acc (.builder i)) (.builder (i + 1 + j2)) =
          accGet acc (.builder (i + 1 + j2)) := by
        refine accGet_accDelete_ne acc (.builder (i + 1 + j2)) (.builder i) ?_
        intro hcontra
        simp only [StageKey.builder.injEq] at hcontra
        omega
      rw [hacc] at hget
      show (buildersAux rest (i + 1) (accDelete acc (.builder i))).1.get? j2 = _
      rw [hget]
      rw [show i + 1 + j2 = i + (j2 + 1) from by omega]
      rfl

theorem buildersAux_snd (stagesNF : List Stage) :
    ∀ (i : Nat) (acc : Acc),
      (buildersAux stagesNF i acc).2 = deleteRange acc i stagesNF.length := by
  induction stagesNF with
  | nil => intro i acc; rfl
  | cons st rest ih =>
    intro i acc
    show (buildersAux rest (i + 1) (accDelete acc (.builder i))).2 = _
    rw [ih (i + 1) (accDelete acc (.builder i))]
    rfl

theorem deleteRange_ext : ∀ (m i : Nat) (acc : Acc),
    (∀ p ∈ acc, isExtKey p.1 = true ∨
      ∃ j, p.1 = StageKey.builder j ∧ i ≤ j ∧ j < i + m) →
    (acc.map Prod.fst).Nodup →
    deleteRange acc i m = accExt acc := by
  intro m
  induction m with
  | zero =>
    intro i acc hkeys _
    have hext : ∀ p ∈ acc, isExtKey p.1 = true := by
      intro p hp
      rcases hkeys p hp with h1 | ⟨j, _, hj1, hj2⟩
      · exact h1
      · omega
    rw [show deleteRange acc i 0 = acc from rfl]
    exact (accExt_all_ext acc hext).symm
  | succ m1 ih =>
    intro i acc hkeys hnodup
    show deleteRange (accDelete acc (.builder i)) (i + 1) m1 = accExt acc
    have hsub := accDelete_mem acc (.builder i)
    have hnotin := accDelete_not_mem_keys acc (.builder i) hnodup
    have hkeys1 : ∀ p ∈ accDelete acc (.builder i), isExtKey p.1 = true ∨
        ∃ j, p.1 = StageKey.builder j ∧ i + 1 ≤ j ∧ j < i + 1 + m1 := by
      intro p hp
      rcases hkeys p (hsub p hp) with h1 | ⟨j, hpj, hj1, hj2⟩
      · exact Or.inl h1
      · refine Or.inr ⟨j, hpj, ?_, by omega⟩
        rcases Nat.lt_or_ge i (j + 1) with hlt | hge
        · rcases Nat.eq_or_lt_of_le hj1 with heq | hlt2
          · exfalso
            apply hnotin
            refine List.mem_map.mpr ⟨p, hp, ?_⟩
            rw [hpj, ← heq]
          · omega
        · omega
    rw [ih (i + 1) (accDelete acc (.builder i)) hkeys1
      (accDelete_keys_nodup acc (.builder i) hnodup)]
    exact accExt_accDelete_builder acc i

theorem externalsOf_numberExt (stages : List Stage) :
    ∀ (occs : List (String × String)) (n : Nat),
      externalsOf stages (numberExt occs n) =
        occs.map fun e => ⟨"", e.1, [e.2]⟩ := by
  intro occs
  induction occs with
  | nil => intro n; rfl
  | cons e rest ih =>
    intro n
    show (⟨"", e.1, [e.2]⟩ : packageSource) ::
        externalsOf stages (numberExt rest (n + 1)) = _
    rw [ih (n + 1)]
    rfl

/-- Claim C3 (amended): for a stage list whose final stage contains external
copies, `getPackageSources` emits one Builder `packageSource` per non-final
stage, in order, keeping that stage's alias and base pullspec, followed by
exactly one External `packageSource` per (copy, source-path) occurrence
whose `from` is not a declared alias — keyed by that image reference, with
empty alias and exactly that single path as its mask.  (Occurrences of the
same external reference are *not* merged.) -/
theorem c3_package_sources_shape (stages : List Stage) (fuel : Nat)
    (fin : Stage) (res : List packageSource)
    (hfin : stages.getLast? = some fin)
    (hok : getPackageSources stages fuel = .ok res) :
    res.length = (stages.length - 1) + (extOccs stages fin.Copies).length
    ∧ (∀ j, j + 1 < stages.length →
        (res.get? j).map packageSource.alias0 = (stages.get? j).map Stage.Alias
        ∧ (res.get? j).map packageSource.pullspec =
            (stages.get? j).map Stage.Pullspec)
    ∧ (res.drop (stages.length - 1)).map (fun p => (p.pullspec, p.sources)) =
        (extOccs stages fin.Copies).map (fun e => (e.1, [e.2]))
    ∧ (∀ p ∈ res.drop (stages.length - 1), p.alias0 = "") := by
  simp only [getPackageSources, hfin] at hok
  cases hf : traceFinalCopies stages fuel fin.Copies [] 0 with
  | ok accF nF =>
    rw [hf] at hok
    simp only at hok
    obtain ⟨he, _, hgood⟩ := traceFinalCopies_spec stages fuel fin.Copies []
      0 accF nF hf
    have hgF : GoodAcc (stages.length - 1) accF ∧ extCounterOK nF accF := by
      apply hgood
      constructor
      · exact ⟨fun p hp => absurd hp (by simp), by simp⟩
      · intro m f0 hm
        simp [accExt] at hm
    have heF : accExt accF = numberExt (extOccs stages fin.Copies) 0 := by
      rw [he]
      rfl
    obtain ⟨hblen, hbget⟩ := buildersAux_fst stages.dropLast 0 accF
    have hrem : (buildersAux stages.dropLast 0 accF).2 =
        numberExt (extOccs stages fin.Copies) 0 := by
      rw [buildersAux_snd stages.dropLast 0 accF, List.length_dropLast]
      rw [deleteRange_ext (stages.length - 1) 0 accF ?hkeys hgF.1.2]
      · exact heF
      case hkeys =>
        intro p hp
        rcases hgF.1.1 p hp with h1 | ⟨j, hj1, hj2⟩
        · exact Or.inl h1
        · exact Or.inr ⟨j, hj1, by omega, by omega⟩
    have hes : externalsOf stages (buildersAux stages.dropLast 0 accF).2 =
        (extOccs stages fin.Copies).map fun e => ⟨"", e.1, [e.2]⟩ := by
      rw [hrem]
      exact externalsOf_numberExt stages (extOccs stages fin.Copies) 0
    cases hok
    have hbl : (buildersAux stages.dropLast 0 accF).1.length =
        stages.length - 1 := by
      rw [hblen, List.length_dropLast]
    refine ⟨?_, ?_, ?_, ?_⟩
    · rw [List.length_append, hbl, hes]
      simp
    · intro j hj
      have hjb : j < (buildersAux stages.dropLast 0 accF).1.length := by
        rw [hbl]; omega
      rw [List.get?_append hjb, hbget j]
      rw [show stages.dropLast.get? j = stages.get? j from
        get?_dropLast stages j hj]
      cases hg : stages.get? j with
      | none => simp
      | some st => simp
    · rw [show (stages.length - 1 : Nat) =
        (buildersAux stages.dropLast 0 accF).1.length from hbl.symm]
      rw [List.drop_left, hes]
      simp
    · rw [show (stages.length - 1 : Nat) =
        (buildersAux stages.dropLast 0 accF).1.length from hbl.symm]
      rw [List.drop_left, hes]
      intro p hp
      obtain ⟨e, _, heq⟩ := List.mem_map.mp hp
      rw [← heq]
  | nilDeref => rw [hf] at hok; exact absurd hok (by simp)
  | outOfFuel => rw [hf] at hok; exact absurd hok (by simp)

/-- Witness for `c3_package_sources_shape`: one builder stage and one
final-stage external copy with two sources. -/
theorem c3_package_sources_shape_witness :
    ([⟨"b", "img", ["/a", "/b"]⟩, ⟨"", "repo/other:tag", ["/x"]⟩,
      ⟨"", "repo/other:tag", ["/y"]⟩] : List packageSource).length =
      (2 - 1) + (extOccs
        [⟨"b", "img", []⟩,
         ⟨FinalStage, "",
          [⟨["/x", "/y"], "/d", "repo/other:tag", .external⟩,
           ⟨["/a", "/b"], "/a", "b", .builder⟩]⟩]
        [⟨["/x", "/y"], "/d", "repo/other:tag", .external⟩,
         ⟨["/a", "/b"], "/a", "b", .builder⟩]).length :=
  (c3_package_sources_shape
    [⟨"b", "img", []⟩,
     ⟨FinalStage, "",
      [⟨["/x", "/y"], "/d", "repo/other:tag", .external⟩,
       ⟨["/a", "/b"], "/a", "b", .builder⟩]⟩] 9
    ⟨FinalStage, "",
     [⟨["/x", "/y"], "/d", "repo/other:tag", .external⟩,
      ⟨["/a", "/b"], "/a", "b", .builder⟩]⟩
    [⟨"b", "img", ["/a", "/b"]⟩, ⟨"", "repo/other:tag", ["/x"]⟩,
     ⟨"", "repo/other:tag", ["/y"]⟩]
    (by decide) (by decide)).1

/-- Claim C3 counterexample: one final-stage copy from the undeclared
reference `repo/other:tag` with two sources yields *two* external
`packageSource`s for that reference, each with a single-path mask — not
exactly one carrying all copied paths. -/
theorem c3_counterexample :
    getPackageSources
      [⟨FinalStage, "", [⟨["/a", "/b"], "/d", "repo/other:tag", .external⟩]⟩]
      9 =
      .ok [⟨"", "repo/other:tag", ["/a"]⟩, ⟨"", "repo/other:tag", ["/b"]⟩]
    ∧ (([⟨"", "repo/other:tag", ["/a"]⟩,
         ⟨"", "repo/other:tag", ["/b"]⟩] : List packageSource).filter
        (fun p => p.pullspec == "repo/other:tag")).length ≠ 1 := by
  decide

/-! ## C6 -/

theorem chainWalk_reached_ne (store : GoStore) (bid : String) (fuel : Nat)
    (lid : String) (h : chainWalk store bid fuel lid = .reached) : lid ≠ "" := by
  cases fuel with
  | zero => exact absurd h (by simp [chainWalk])
  | succ f =>
    intro he
    rw [he] at h
    simp [chainWalk] at h

theorem depthWalk_pos (store : GoStore) (bid : String) (fuel : Nat)
    (lid : String) (d : Nat) (h0 : lid ≠ "") (hb : lid ≠ bid)
    (h : depthWalk store bid fuel lid = .ok d) : 1 ≤ d := by
  cases fuel with
  | zero => exact absurd h (by simp [depthWalk])
  | succ f =>
    simp only [depthWalk, if_neg h0, if_neg hb] at h
    cases hl : storeLayer store lid with
    | none => rw [hl] at h; exact absurd h (by simp)
    | some l =>
      rw [hl] at h
      dsimp only at h
      cases hd : depthWalk store bid f l.Parent with
      | ok d1 => rw [hd] at h; cases h; omega
      | storeErr => rw [hd] at h; exact absurd h (by simp)
      | outOfFuel => rw [hd] at h; exact absurd h (by simp)

theorem interLayersAux_spec (store : GoStore) (bl : GoLayer) (fuel : Nat) :
    ∀ (imgs : List GoImage) (l : List GoLayer),
      interLayersAux store bl fuel imgs = .ok l →
      (l = [] ↔ ∀ img ∈ imgs, ¬candidateImg store bl fuel img)
      ∧ ∀ c ∈ l, ∃ img ∈ imgs, candidateImg store bl fuel img ∧
          storeLayer store img.TopLayer = some c := by
  intro imgs
  induction imgs with
  | nil =>
    intro l h
    cases h
    exact ⟨by simp, by simp⟩
  | cons img rest ih =>
    intro l h
    by_cases hn : img.Names.length ≠ 0
    · have hnm : ¬candidateImg store bl fuel img := by
        rintro ⟨h1, _, _⟩
        rw [h1] at hn
        exact hn rfl
      simp only [interLayersAux, if_pos hn] at h
      obtain ⟨hiff, hmem⟩ := ih l h
      refine ⟨?_, ?_⟩
      · rw [hiff]
        constructor
        · intro hall img2 hm2
          rcases List.mem_cons.mp hm2 with rfl | hm3
          · exact hnm
          · exact hall img2 hm3
        · intro hall img2 hm2
          exact hall img2 (by simp [hm2])
      · intro c hc
        obtain ⟨img2, hm2, hq, hs⟩ := hmem c hc
        exact ⟨img2, by simp [hm2], hq, hs⟩
    · by_cases htl : img.TopLayer = bl.ID
      · have hnm : ¬candidateImg store bl fuel img := by
          rintro ⟨_, h2, _⟩
          exact h2 htl
        simp only [interLayersAux, if_neg hn, if_pos htl] at h
        obtain ⟨hiff, hmem⟩ := ih l h
        refine ⟨?_, ?_⟩
        · rw [hiff]
          constructor
          · intro hall img2 hm2
            rcases List.mem_cons.mp hm2 with rfl | hm3
            · exact hnm
            · exact hall img2 hm3
          · intro hall img2 hm2
            exact hall img2 (by simp [hm2])
        · intro c hc
          obtain ⟨img2, hm2, hq, hs⟩ := hmem c hc
          exact ⟨img2, by simp [hm2], hq, hs⟩
      · simp only [interLayersAux, if_neg hn, if_neg htl] at h
        cases hsl : storeLayer store img.TopLayer with
        | none => rw [hsl] at h; exact absurd h (by simp)
        | some top =>
          rw [hsl] at h
          cases hw : chainWalk store bl.ID fuel img.TopLayer with
          | reached =>
            rw [hw] at h
            cases hrest : interLayersAux store bl fuel rest with
            | ok cs =>
              rw [hrest] at h
              cases h
              obtain ⟨hiff, hmem⟩ := ih cs hrest
              have hq : candidateImg store bl fuel img :=
                ⟨List.length_eq_zero.mp (by omega), htl, hw⟩
              refine ⟨?_, ?_⟩
              · constructor
                · intro hnil; cases hnil
                · intro hall
                  exact absurd hq (hall img (by simp))
              · intro c hc
                rcases List.mem_cons.mp hc with rfl | hc2
                · exact ⟨img, by simp, hq, hsl⟩
                · obtain ⟨img2, hm2, hq2, hs2⟩ := hmem c hc2
                  exact ⟨img2, by simp [hm2], hq2, hs2⟩
            | storeErr => rw [hrest] at h; exact absurd h (by simp)
            | outOfFuel => rw [hrest] at h; exact absurd h (by simp)
          | ended =>
            rw [hw] at h
            have hnm : ¬candidateImg store bl fuel img := by
              rintro ⟨_, _, h3⟩
              rw [hw] at h3
              cases h3
            obtain ⟨hiff, hmem⟩ := ih l h
            refine ⟨?_, ?_⟩
            · rw [hiff]
              constructor
              · intro hall img2 hm2
                rcases List.mem_cons.mp hm2 with rfl | hm3
                · exact hnm
                · exact hall img2 hm3
              · intro hall img2 hm2
                exact hall img2 (by simp [hm2])
            · intro c hc
              obtain ⟨img2, hm2, hq, hs⟩ := hmem c hc
              exact ⟨img2, by simp [hm2], hq, hs⟩
          | storeErr => rw [hw] at h; exact absurd h (by simp)
          | outOfFuel => rw [hw] at h; exact absurd h (by simp)

theorem lastLayerFold_spec (store : GoStore) (bid : String) (fuel : Nat) :
    ∀ (cands : List GoLayer) (maxDepth : Nat) (longest : Option GoLayer)
      (r : Option GoLayer),
      lastLayerFold store bid fuel cands maxDepth longest = .ok r →
      (∀ c ∈ cands, ∃ d, depthWalk store bid fuel c.ID = .ok d)
      ∧ ((r = longest ∧ ∀ c ∈ cands, ∀ d,
            depthWalk store bid fuel c.ID = .ok d → d ≤ maxDepth)
         ∨ (∃ c ∈ cands, r = some c ∧ ∃ dc,
              depthWalk store bid fuel c.ID = .ok dc ∧ maxDepth < dc ∧
              ∀ c2 ∈ cands, ∀ d2,
                depthWalk store bid fuel c2.ID = .ok d2 → d2 ≤ dc)) := by
  intro cands
  induction cands with
  | nil =>
    intro maxDepth longest r h
    cases h
    exact ⟨by simp, Or.inl ⟨rfl, by simp⟩⟩
  | cons c rest ih =>
    intro maxDepth longest r h
    cases hd : depthWalk store bid fuel c.ID with
    | ok d =>
      simp only [lastLayerFold, hd] at h
      by_cases hlt : maxDepth < d
      · rw [if_pos hlt] at h
        obtain ⟨hdep, hbr⟩ := ih d (some c) r h
        refine ⟨?_, ?_⟩
        · intro c2 hc2
          rcases List.mem_cons.mp hc2 with rfl | hm
          · exact ⟨d, hd⟩
          · exact hdep c2 hm
        · rcases hbr with ⟨hr, hbound⟩ | ⟨c1, hc1, hr, dc1, hdc1, hlt1, hbound⟩
          · refine Or.inr ⟨c, by simp, hr, d, hd, hlt, ?_⟩
            intro c2 hc2 d2 hd2
            rcases List.mem_cons.mp hc2 with rfl | hm
            · rw [hd] at hd2; cases hd2; omega
            · exact hbound c2 hm d2 hd2
          · refine Or.inr ⟨c1, by simp [hc1], hr, dc1, hdc1, by omega, ?_⟩
            intro c2 hc2 d2 hd2
            rcases List.mem_cons.mp hc2 with rfl | hm
            · rw [hd] at hd2; cases hd2; omega
            · exact hbound c2 hm d2 hd2
      · rw [if_neg hlt] at h
        obtain ⟨hdep, hbr⟩ := ih maxDepth longest r h
        refine ⟨?_, ?_⟩
        · intro c2 hc2
          rcases List.mem_cons.mp hc2 with rfl | hm
          · exact ⟨d, hd⟩
          · exact hdep c2 hm
        · rcases hbr with ⟨hr, hbound⟩ | ⟨c1, hc1, hr, dc1, hdc1, hlt1, hbound⟩
          · refine Or.inl ⟨hr, ?_⟩
            intro c2 hc2 d2 hd2
            rcases List.mem_cons.mp hc2 with rfl | hm
            · rw [hd] at hd2; cases hd2; omega
            · exact hbound c2 hm d2 hd2
          · refine Or.inr ⟨c1, by simp [hc1], hr, dc1, hdc1, hlt1, ?_⟩
            intro c2 hc2 d2 hd2
            rcases List.mem_cons.mp hc2 with rfl | hm
            · rw [hd] at hd2; cases hd2; omega
            · exact hbound c2 hm d2 hd2
    | storeErr => simp only [lastLayerFold, hd] at h; exact absurd h (by simp)
    | outOfFuel => simp only [lastLayerFold, hd] at h; exact absurd h (by simp)

/-- Claim C6: the layer locator returns no intermediate layer exactly when no
unnamed image in the store (excluding the image whose top layer is the base
layer itself) has a top-layer parent chain that reaches the base layer's
identity; otherwise it returns a surviving candidate whose depth (parent
hops from its top layer to the base layer) is maximal among all surviving
candidates. -/
theorem c6_last_intermediate_layer (store : GoStore) (bl : GoLayer)
    (fuel : Nat) (cands : List GoLayer) (r : Option GoLayer)
    (hc : getIntermediateLayers store bl fuel = .ok cands)
    (hr : getLastIntermediateLayer store bl fuel = .ok r) :
    (r = none ↔ ∀ img ∈ store.images, ¬candidateImg store bl fuel img)
    ∧ ∀ c, r = some c → c ∈ cands
        ∧ ∃ dc, depthWalk store bl.ID fuel c.ID = .ok dc
        ∧ ∀ c2 ∈ cands, ∀ d2,
            depthWalk store bl.ID fuel c2.ID = .ok d2 → d2 ≤ dc := by
  obtain ⟨hiff, hmem⟩ := interLayersAux_spec store bl fuel store.images cands hc
  simp only [getLastIntermediateLayer] at hr
  rw [hc] at hr
  cases cands with
  | nil =>
    cases hr
    refine ⟨?_, ?_⟩
    · simp only [true_iff]
      exact hiff.mp rfl
    · intro c hc2
      cases hc2
  | cons c0 cs =>
    obtain ⟨hdep, hbr⟩ := lastLayerFold_spec store bl.ID fuel (c0 :: cs) 0 none r hr
    have hq0 := hmem c0 (by simp)
    obtain ⟨img0, _, hq0c, hs0⟩ := hq0
    have hc0id : c0.ID = img0.TopLayer := by
      have := List.find?_some hs0
      simpa using this
    have hne : c0.ID ≠ "" := by
      rw [hc0id]
      exact chainWalk_reached_ne store bl.ID fuel img0.TopLayer hq0c.2.2
    have hnb : c0.ID ≠ bl.ID := by
      rw [hc0id]
      exact hq0c.2.1
    rcases hbr with ⟨hr0, hbound⟩ | ⟨c1, hc1, hr1, dc1, hdc1, _, hbound⟩
    · obtain ⟨d0, hd0⟩ := hdep c0 (by simp)
      have h1 := depthWalk_pos store bl.ID fuel c0.ID d0 hne hnb hd0
      have h2 := hbound c0 (by simp) d0 hd0
      omega
    · refine ⟨?_, ?_⟩
      · constructor
        · intro hn; rw [hn] at hr1; cases hr1
        · intro hall
          exact absurd hq0c (hall img0 (by assumption))
      · intro c hceq
        rw [hr1] at hceq
        cases hceq
        exact ⟨hc1, dc1, hdc1, hbound⟩

/-- Witness for `c6_last_intermediate_layer`: a store with one unnamed image
two layers above the base. -/
theorem c6_last_intermediate_layer_witness :
    (⟨"l2", "l1"⟩ : GoLayer) ∈ [(⟨"l2", "l1"⟩ : GoLayer)]
    ∧ ∃ dc, depthWalk
        ⟨[⟨"imgB", "base", ["named"]⟩, ⟨"i1", "l2", []⟩],
         [⟨"base", ""⟩, ⟨"l1", "base"⟩, ⟨"l2", "l1"⟩]⟩ "base" 9 "l2" = .ok dc
      ∧ ∀ c2 ∈ [(⟨"l2", "l1"⟩ : GoLayer)], ∀ d2,
          depthWalk
            ⟨[⟨"imgB", "base", ["named"]⟩, ⟨"i1", "l2", []⟩],
             [⟨"base", ""⟩, ⟨"l1", "base"⟩, ⟨"l2", "l1"⟩]⟩ "base" 9 c2.ID =
            .ok d2 → d2 ≤ dc :=
  (c6_last_intermediate_layer
      ⟨[⟨"imgB", "base", ["named"]⟩, ⟨"i1", "l2", []⟩],
       [⟨"base", ""⟩, ⟨"l1", "base"⟩, ⟨"l2", "l1"⟩]⟩
      ⟨"base", ""⟩ 9 [⟨"l2", "l1"⟩] (some ⟨"l2", "l1"⟩)
      (by decide) (by decide)).2 ⟨"l2", "l1"⟩ rfl

/-- Claim C2: when recursive tracing follows a copy whose `from` is not a
declared stage alias, the code does *not* attribute the path to an external
`PackageSource`; it looks the `from` up in `aliasToStage`, obtains the `nil`
pointer, and dereferences it — for every fuel bound ≥ 1 the run ends in the
nil-dereference panic rather than returning package sources. -/
theorem c2_external_from_nil_deref :
    aliasToStageIdx c2Stages "ext.io/img:tag" = none
    ∧ ∀ fuel, getPackageSources c2Stages (fuel + 1) = .nilDeref := by
  refine ⟨by decide, ?_⟩
  intro fuel
  cases fuel with
  | zero => decide
  | succ f => rfl

/-! ## C7 -/

theorem parseStagesAux_spec (allLen : Nat) (po : String → String) :
    ∀ (raws : List RawStage) (idx : Nat) (names : List String)
      (acc res : List Stage),
      parseStagesAux allLen po idx names raws acc = .ok res →
      res.length = acc.length + raws.length
      ∧ (∀ j, j < acc.length → res.get? j = acc.get? j)
      ∧ (∀ j, j < raws.length →
          (res.get? (acc.length + j)).map Stage.Alias =
            (raws.get? j).map fun r =>
              if idx + j = allLen - 1 then FinalStage else r.name) := by
  intro raws
  induction raws with
  | nil =>
    intro idx names acc res h
    cases h
    exact ⟨by simp, fun j _ => rfl, fun j hj => absurd hj (by simp)⟩
  | cons r rest ih =>
    intro idx names acc res h
    simp only [parseStagesAux] at h
    cases hg : getBuilderCopiesInStage (names ++ [r.name]) r.instrs with
    | err e => rw [hg] at h; exact absurd h (by simp)
    | ok cps =>
      rw [hg] at h
      obtain ⟨h1, h2, h3⟩ := ih (idx + 1) (names ++ [r.name])
        (acc ++ [⟨if idx = allLen - 1 then FinalStage else r.name,
                  po (if idx = allLen - 1 then FinalStage else r.name), cps⟩]) res h
      refine ⟨by rw [h1]; simp; omega, ?_, ?_⟩
      · intro j hj
        rw [h2 j (by simp; omega)]
        exact List.get?_append hj
      · intro j hj
        cases j with
        | zero =>
          have hmid := h2 acc.length (by simp)
          have hsingle :
              (acc ++ [(⟨if idx = allLen - 1 then FinalStage else r.name,
                po (if idx = allLen - 1 then FinalStage else r.name), cps⟩ : Stage)]).get?
                acc.length =
              some ⟨if idx = allLen - 1 then FinalStage else r.name,
                po (if idx = allLen - 1 then FinalStage else r.name), cps⟩ := by
            rw [List.get?_append_right (Nat.le_refl _)]
            simp
          rw [Nat.add_zero, hmid, hsingle]
          simp
        | succ j2 =>
          have hj2 : j2 < rest.length := by simpa using Nat.lt_of_succ_lt_succ hj
          have h3j := h3 j2 hj2
          have e1 : acc.length + (j2 + 1) =
              (acc ++ [(⟨if idx = allLen - 1 then FinalStage else r.name,
                po (if idx = allLen - 1 then FinalStage else r.name), cps⟩ : Stage)]).length
                + j2 := by
            simp
            omega
          have e2 : idx + (j2 + 1) = idx + 1 + j2 := by omega
          rw [e1, h3j]
          simp only [List.get?_cons_succ, e2]

/-- Claim C7: for every recipe accepted by `Parse`, the returned stage list has
exactly one `Stage` per raw stage retained after target truncation, in
order; the last returned stage, and only the last, has the final-stage
sentinel alias, and every other stage keeps its original alias. -/
theorem c7_parse_structure (raws : List RawStage) (res : List Stage)
    (hok : parseStages raws = .ok res)
    (hnames : ∀ r ∈ raws.dropLast, r.name ≠ FinalStage) :
    res.length = raws.length
    ∧ (∀ j, j + 1 < raws.length →
        (res.get? j).map Stage.Alias = (raws.get? j).map RawStage.name)
    ∧ (res.get? (raws.length - 1)).map Stage.Alias = some FinalStage
    ∧ (∀ j, j + 1 < raws.length →
        (res.get? j).map Stage.Alias ≠ some FinalStage) := by
  cases raws with
  | nil => exact absurd hok (by simp [parseStages])
  | cons r0 rrest =>
    have hok' : parseStagesAux (r0 :: rrest).length
        (mapAliasesToPullspecs (r0 :: rrest)) 0 [] (r0 :: rrest) [] = .ok res := hok
    obtain ⟨h1, _, h3⟩ :=
      parseStagesAux_spec (r0 :: rrest).length (mapAliasesToPullspecs (r0 :: rrest))
        (r0 :: rrest) 0 [] [] res hok'
    simp only [List.length_nil, Nat.zero_add] at h1 h3
    have halias : ∀ j, j + 1 < (r0 :: rrest).length →
        (res.get? j).map Stage.Alias = ((r0 :: rrest).get? j).map RawStage.name := by
      intro j hj
      have hjlt : j < (r0 :: rrest).length := by omega
      cases hg : (r0 :: rrest).get? j with
      | none =>
        exact absurd (List.get?_eq_none.mp hg) (by omega)
      | some rj =>
        have h3j := h3 j hjlt
        rw [hg] at h3j
        rw [h3j]
        have hne : j ≠ rrest.length := by
          have hj2 : j + 1 < rrest.length + 1 := by simpa using hj
          omega
        simp [hne]
    refine ⟨h1, halias, ?_, ?_⟩
    · have hlast : (r0 :: rrest).length - 1 < (r0 :: rrest).length := by simp
      cases hg : (r0 :: rrest).get? ((r0 :: rrest).length - 1) with
      | none => exact absurd (List.get?_eq_none.mp hg) (by omega)
      | some rl =>
        have := h3 ((r0 :: rrest).length - 1) hlast
        rw [hg] at this
        rw [this]
        simp
    · intro j hj
      rw [halias j hj]
      cases hg : (r0 :: rrest).get? j with
      | none => exact absurd (List.get?_eq_none.mp hg) (by omega)
      | some rj =>
        have hd : (r0 :: rrest).dropLast.get? j = some rj := by
          rw [get?_dropLast _ j hj]; exact hg
        have hmem : rj ∈ (r0 :: rrest).dropLast := List.get?_mem hd
        simpa using hnames rj hmem

/-- Witness for `c7_parse_structure`: a two-stage recipe. -/
theorem c7_parse_structure_witness :
    ([⟨"b", "img", []⟩, ⟨FinalStage, "", []⟩] : List Stage).length =
      ([⟨"b", "img", []⟩, ⟨"last", "scratch", []⟩] : List RawStage).length
    ∧ (([⟨"b", "img", []⟩, ⟨FinalStage, "", []⟩] : List Stage).get?
        (([⟨"b", "img", []⟩, ⟨"last", "scratch", []⟩] : List RawStage).length - 1)).map
        Stage.Alias = some FinalStage :=
  ⟨(c7_parse_structure [⟨"b", "img", []⟩, ⟨"last", "scratch", []⟩]
      [⟨"b", "img", []⟩, ⟨FinalStage, "", []⟩] (by decide) (by decide)).1,
   (c7_parse_structure [⟨"b", "img", []⟩, ⟨"last", "scratch", []⟩]
      [⟨"b", "img", []⟩, ⟨FinalStage, "", []⟩] (by decide) (by decide)).2.2.1⟩

/-! ## C8 -/

theorem builderCopiesAux_err (stageNames : List String) :
    ∀ (pre : List Instruction) (ins : Instruction) (post : List Instruction)
      (acc : List Copy),
      (∀ d, Instruction.workdir d ∈ pre → goIsAbs d = false) →
      ((∃ d, ins = .workdir d ∧ goIsAbs d = false)
       ∨ (∃ flags args f1, ins = .copy flags args
            ∧ findFromFlag flags = some f1
            ∧ goIsAbs ((args.getLast?).getD "") = false)) →
      builderCopiesAux stageNames "" (pre ++ ins :: post) acc =
        .err .ambiguousRelativePath := by
  intro pre
  induction pre with
  | nil =>
    intro ins post acc _ hoff
    rcases hoff with ⟨d, rfl, hd⟩ | ⟨flags, args, f1, rfl, hf, hrel⟩
    · simp [builderCopiesAux, hd]
    · simp [builderCopiesAux, parseCopy, hf, hrel]
  | cons i0 pre1 ih =>
    intro ins post acc hpre hoff
    cases i0 with
    | workdir d =>
      have hd : goIsAbs d = false := hpre d (by simp)
      simp [builderCopiesAux, hd]
    | copy flags args =>
      have hpre1 : ∀ d, Instruction.workdir d ∈ pre1 → goIsAbs d = false :=
        fun d hd => hpre d (by simp [hd])
      cases hf : findFromFlag flags with
      | none =>
        simpa [builderCopiesAux, parseCopy, hf] using ih ins post acc hpre1 hoff
      | some f1 =>
        cases hrel : goIsAbs ((args.getLast?).getD "") with
        | false => simp [builderCopiesAux, parseCopy, hf, hrel]
        | true =>
          simpa [builderCopiesAux, parseCopy, hf, hrel] using
            ih ins post _ hpre1 hoff
    | other =>
      simpa [builderCopiesAux] using
        ih ins post acc (fun d hd => hpre d (by simp [hd])) hoff

theorem parseStagesAux_err (allLen : Nat) (po : String → String) :
    ∀ (raws : List RawStage) (idx : Nat) (names : List String)
      (acc : List Stage),
      (∃ r ∈ raws, relBeforeAbs r.instrs) →
      ∃ p, parseStagesAux allLen po idx names raws acc =
        .err p .ambiguousRelativePath := by
  intro raws
  induction raws with
  | nil =>
    rintro _ _ _ ⟨r, hr, _⟩
    exact absurd hr (by simp)
  | cons r0 rest ih =>
    rintro idx names acc ⟨r, hr, hoffend⟩
    cases hg : getBuilderCopiesInStage (names ++ [r0.name]) r0.instrs with
    | err e =>
      cases e
      exact ⟨acc, by simp [parseStagesAux, hg]⟩
    | ok cps =>
      rcases List.mem_cons.mp hr with heq | hr1
      · subst heq
        obtain ⟨pre, ins, post, hsplit, hpre, hoff⟩ := hoffend
        have herr := builderCopiesAux_err (names ++ [r.name]) pre ins post []
          hpre hoff
        rw [← hsplit] at herr
        rw [show getBuilderCopiesInStage (names ++ [r.name]) r.instrs =
            builderCopiesAux (names ++ [r.name]) "" r.instrs [] from rfl] at hg
        rw [hg] at herr
        exact absurd herr (by simp)
      · obtain ⟨p, hp⟩ := ih (idx + 1) (names ++ [r0.name])
          (acc ++ [⟨if idx = allLen - 1 then FinalStage else r0.name,
            po (if idx = allLen - 1 then FinalStage else r0.name), cps⟩])
          ⟨r, hr1, hoffend⟩
        exact ⟨p, by simp only [parseStagesAux, hg]; exact hp⟩

/-- Claim C8 (amended): a relative-path `WORKDIR`, or a relative destination in
a copy *carrying a `--from` qualifier*, appearing before any absolute
working directory has been established in its stage, makes `Parse` fail with
`AmbiguousRelativePath`; working directories are tracked per stage, an
absolute argument replacing the current value and a relative argument being
joined onto it. -/
theorem c8_relative_path_errors :
    (∀ (stageNames : List String) (instrs : List Instruction),
      relBeforeAbs instrs →
      getBuilderCopiesInStage stageNames instrs = .err .ambiguousRelativePath)
    ∧ (∀ (stageNames : List String) (w d : String) (rest : List Instruction)
        (acc : List Copy), goIsAbs d = true →
        builderCopiesAux stageNames w (.workdir d :: rest) acc =
          builderCopiesAux stageNames d rest acc)
    ∧ (∀ (stageNames : List String) (w d : String) (rest : List Instruction)
        (acc : List Copy), goIsAbs d = false → w ≠ "" →
        builderCopiesAux stageNames w (.workdir d :: rest) acc =
          builderCopiesAux stageNames (goJoin w d) rest acc)
    ∧ (∀ raws : List RawStage,
        (∃ r ∈ raws, relBeforeAbs r.instrs) →
        ∃ p, parseStages raws = .err p .ambiguousRelativePath) := by
  refine ⟨?_, ?_, ?_, ?_⟩
  · rintro stageNames instrs ⟨pre, ins, post, hsplit, hpre, hoff⟩
    rw [hsplit]
    exact builderCopiesAux_err stageNames pre ins post [] hpre hoff
  · intro stageNames w d rest acc hd
    simp [builderCopiesAux, hd]
  · intro stageNames w d rest acc hd hw
    simp [builderCopiesAux, hd, hw]
  · rintro raws hex
    match raws, hex with
    | r0 :: rest, hex =>
      exact parseStagesAux_err (r0 :: rest).length
        (mapAliasesToPullspecs (r0 :: rest)) (r0 :: rest) 0 [] [] hex

/-- Witness for `c8_relative_path_errors`: a builder copy with relative
destination and no prior `WORKDIR`. -/
theorem c8_relative_path_errors_witness :
    getBuilderCopiesInStage ["b"] [.copy ["--from=b"] ["s", "d"]] =
      .err .ambiguousRelativePath :=
  c8_relative_path_errors.1 ["b"] [.copy ["--from=b"] ["s", "d"]]
    ⟨[], .copy ["--from=b"] ["s", "d"], [], by decide, by simp,
     Or.inr ⟨["--from=b"], ["s", "d"], "b", rfl, by decide, by decide⟩⟩

/-- Claim C8 counterexample: a `COPY` *without* a `--from` qualifier whose
destination `bar` is relative, with no working directory established, does
not make `Parse` fail — context copies are ignored, so the claim's
unqualified "relative copy-destination" is too strong. -/
theorem c8_counterexample :
    goIsAbs "bar" = false
    ∧ findFromFlag [] = none
    ∧ parseStages [⟨"s0", "img", [.copy [] ["foo", "bar"]]⟩] =
        .ok [⟨FinalStage, "", []⟩] := by
  decide

/-- Claim C1 counterexample: in stage `B` the copy's destination `/app/` *is* a
path-prefix of the traced path `/app/x`, which does not end with a
separator, so the claim as stated demands recursion into that copy (masks
`A ↦ ["/bin/x"]`, `B ↦ []`); the code instead attributes `/app/x` directly
to `B` and nothing to `A`, because it tests whether the traced path is a
prefix of the destination, not the reverse. -/
theorem c1_counterexample :
    hasPrefixGo "/app/x" "/app/" = true
    ∧ hasSuffixGo "/app/x" "/" = false
    ∧ getPackageSources
        [⟨"A", "imgA", []⟩,
         ⟨"B", "imgB", [⟨["/bin/x"], "/app/", "A", .builder⟩]⟩,
         ⟨FinalStage, "", [⟨["/app/x"], "/app/x", "B", .builder⟩]⟩] 9 =
      .ok [⟨"A", "imgA", []⟩, ⟨"B", "imgB", ["/app/x"]⟩] := by
  decide

end Capo
